import Mathlib

/-!
Shallow embedding of the `@nullify/testing` test engine
(`src/testing.ts`, `src/runner.ts`, `src/utils.ts`, `src/model.ts`).

Test and hook callbacks are modelled as state transformers over an
arbitrary world type `σ`: a callback takes the world and returns the new
world together with `none` (the promise resolved) or `some e` (it threw
`e`).  Execution is strictly serial, exactly as the engine's single
cooperative timeline; `Promise.all` over a list of callbacks is modelled
as running every callback in array order and propagating the first
rejection (`callAll`).  Wall-clock time is modelled by a millisecond
counter: each test body carries the number of milliseconds after which
its promise settles, and hook callbacks settle immediately.

The mutable scope frames (`Context` objects in `model.ts`) live in a
store (`ExecSt.frames`, a list indexed by position); a test's
registration-time snapshot `copy = [...this.#stack]` is the list of frame
indices, so counter mutations through one reference are seen through the
other, exactly as in the source where the array copy shares the frame
objects.
-/

namespace Testing

/-- A value thrown by a test or hook, or produced by the timeout race
(`TimeoutError` in `utils.ts`). -/
inductive Err where
  | assertionFailed (msg : String)
  | timeoutAfter (ms : Nat)
  deriving DecidableEq, Repr

/-- Outcome status of a single test (`TestEnd.status` in `model.ts`). -/
inductive Status where
  | passed
  | failed
  | ignored
  deriving DecidableEq, Repr

/-- `TestEnd` from `model.ts`: information about a completed test. -/
structure TestEnd where
  name : String
  duration : Nat
  status : Status
  error : Option Err
  deriving DecidableEq, Repr

/-- `SuiteEnd` from `model.ts`: the aggregate result of a run.
`timeoutMs` is the optional `timeout` field reported when the suite-level
timer fired. -/
structure SuiteEnd where
  usedOnly : Bool
  duration : Nat
  results : List TestEnd
  filtered : Nat
  ignored : Nat
  passed : Nat
  failed : Nat
  timeoutMs : Option Nat
  deriving DecidableEq, Repr

/-- `emptyEndMsg` from `testing.ts`. -/
def emptyEndMsg : SuiteEnd :=
  { usedOnly := false, duration := 0, results := [], filtered := 0,
    ignored := 0, passed := 0, failed := 0, timeoutMs := none }

/-- A `TestEvent` from `model.ts`: the tagged union emitted by the
runner's async iterator.  `start` carries the names of the tests that
will run; `testStart` carries the test's (fully qualified) name. -/
inductive Ev where
  | start (names : List String)
  | testStart (name : String)
  | testEnd (e : TestEnd)
  | endEv (e : SuiteEnd)
  deriving DecidableEq, Repr

/-- The four hook phases of a scope frame. -/
inductive HPhase where
  | bAll
  | bEach
  | aEach
  | aAll
  deriving DecidableEq, Repr

/-- Instrumentation log entries (not part of the emitted event stream):
`phase p g` records that `callAll` was invoked for phase `p` of the frame
with store index `g`; `hook i` records that the hook callback with id `i`
was invoked; `body n` records that the test body of the test named `n`
was invoked. -/
inductive LEv where
  | phase (p : HPhase) (frame : Nat)
  | hook (id : Nat)
  | body (name : String)
  deriving DecidableEq, Repr

/-- A hook callback: an identifier (for the instrumentation log) plus the
callback itself, a world transformer that may throw. -/
structure Hook (σ : Type) where
  id : Nat
  run : σ → σ × Option Err

/-- A scope frame: the `Context` record created by `newContext()` in
`testing.ts` together with the group name added when it is pushed. -/
structure Frame (σ : Type) where
  name : String
  beforeAll : List (Hook σ)
  beforeEach : List (Hook σ)
  afterEach : List (Hook σ)
  afterAll : List (Hook σ)
  waiting : Nat
  completed : Nat
  only : Nat
  completedOnly : Nat

/-- `newContext()` from `testing.ts` plus the frame name. -/
def newContext (σ : Type) (name : String) : Frame σ :=
  { name := name, beforeAll := [], beforeEach := [], afterEach := [],
    afterAll := [], waiting := 0, completed := 0, only := 0,
    completedOnly := 0 }

instance (σ : Type) : Inhabited (Frame σ) := ⟨newContext σ ""⟩

/-- A registered test (`TestDefinition` from `model.ts`, after
`wrapHooks`): the fully qualified name, the raw body, the number of
milliseconds after which the body's promise settles, the `ignore`/`only`
flags, the per-test `timeout` in milliseconds, and the stack snapshot
taken at registration (`copy = [...this.#stack]`), as indices into the
frame store. -/
structure Test (σ : Type) where
  name : String
  body : σ → σ × Option Err
  time : Nat
  ignore : Bool
  only : Bool
  timeoutMs : Nat
  snapshot : List Nat

/-- Mutable state threaded through the execution of wrapped test
functions: the frame store, the caller's world and the instrumentation
log. -/
structure ExecSt (σ : Type) where
  frames : List (Frame σ)
  world : σ
  log : List LEv

/-- Update the frame at index `g` of the store (no-op when out of
range; snapshots only hold in-range indices). -/
def updFr {σ : Type} : List (Frame σ) → Nat → (Frame σ → Frame σ) → List (Frame σ)
  | [], _, _ => []
  | f :: fs, 0, h => h f :: fs
  | f :: fs, Nat.succ n, h => f :: updFr fs n h

/-- Read the frame at index `g` of the store. -/
def getFr {σ : Type} (fs : List (Frame σ)) (g : Nat) : Frame σ :=
  fs.getD g default

/-- `callAll` from `testing.ts`: `Promise.all(fns.map((fn) => fn()))`.
Every callback is invoked in array order; the first rejection becomes the
rejection of the join.  Each invocation is recorded in the log. -/
def callAll {σ : Type} : List (Hook σ) → ExecSt σ → ExecSt σ × Option Err
  | [], st => (st, none)
  | h :: hs, st =>
    let r := h.run st.world
    let st' : ExecSt σ := { st with world := r.1, log := st.log ++ [LEv.hook h.id] }
    let rest := callAll hs st'
    (rest.1, r.2 <|> rest.2)

/-- The setup half of the `wrappedFn` loop in `wrapHooks`: iterate the
snapshot outer to inner; when the frame's `completed` counter is zero,
run its `beforeAll` join, then always run its `beforeEach` join.  A
rejection propagates immediately (the composer catches nothing). -/
def setupPhase {σ : Type} : List Nat → ExecSt σ → ExecSt σ × Option Err
  | [], st => (st, none)
  | g :: rest, st =>
    let fr := getFr st.frames g
    let s1 : ExecSt σ × Option Err :=
      if fr.completed == 0 then
        callAll fr.beforeAll { st with log := st.log ++ [LEv.phase HPhase.bAll g] }
      else (st, none)
    match s1.2 with
    | some e => (s1.1, some e)
    | none =>
      let s2 := callAll fr.beforeEach { s1.1 with log := s1.1.log ++ [LEv.phase HPhase.bEach g] }
      match s2.2 with
      | some e => (s2.1, some e)
      | none => setupPhase rest s2.1

/-- The completion bookkeeping of `wrappedFn`: increment `completed` (and
`completedOnly` when the test is an `only` test). -/
def bumpFrame {σ : Type} (only : Bool) (f : Frame σ) : Frame σ :=
  { f with completed := f.completed + 1,
           completedOnly := if only then f.completedOnly + 1 else f.completedOnly }

/-- Apply a frame update at each of the given store indices in order. -/
def updEach {σ : Type} (h : Frame σ → Frame σ) : List Nat → List (Frame σ) → List (Frame σ)
  | [], fs => fs
  | g :: rest, fs => updEach h rest (updFr fs g h)

/-- `for (const hook of hooks) { hook.completed++; if (only) hook.completedOnly++; }` -/
def bookkeep {σ : Type} (only : Bool) (snap : List Nat) (fs : List (Frame σ)) : List (Frame σ) :=
  updEach (bumpFrame only) snap fs

/-- The `afterAll` trigger of the teardown loop:
`waiting === completed || (only > 0 && only === completedOnly)`. -/
def fireAfterAll {σ : Type} (f : Frame σ) : Bool :=
  f.waiting == f.completed || (f.only != 0 && f.only == f.completedOnly)

/-- The teardown half of the `wrappedFn` loop: iterate the reversed
snapshot; run the `afterEach` join, then, when the `afterAll` trigger
condition holds, the `afterAll` join.  A rejection propagates
immediately. -/
def teardownPhase {σ : Type} : List Nat → ExecSt σ → ExecSt σ × Option Err
  | [], st => (st, none)
  | g :: rest, st =>
    let fr := getFr st.frames g
    let s1 := callAll fr.afterEach { st with log := st.log ++ [LEv.phase HPhase.aEach g] }
    match s1.2 with
    | some e => (s1.1, some e)
    | none =>
      let s2 : ExecSt σ × Option Err :=
        if fireAfterAll fr then
          callAll fr.afterAll { s1.1 with log := s1.1.log ++ [LEv.phase HPhase.aAll g] }
        else (s1.1, none)
      match s2.2 with
      | some e => (s2.1, some e)
      | none => teardownPhase rest s2.1

/-- The `wrappedFn` produced by `wrapHooks`: setup over the snapshot,
then the test body with its thrown value captured, then completion
bookkeeping, then teardown over the reversed snapshot, and finally the
captured body error is rethrown. -/
def runWrapped {σ : Type} (t : Test σ) (st : ExecSt σ) : ExecSt σ × Option Err :=
  let s := setupPhase t.snapshot st
  match s.2 with
  | some e => (s.1, some e)
  | none =>
    let r := t.body s.1.world
    let st2 : ExecSt σ := { s.1 with world := r.1, log := s.1.log ++ [LEv.body t.name] }
    let st3 : ExecSt σ := { st2 with frames := bookkeep t.only t.snapshot st2.frames }
    let td := teardownPhase t.snapshot.reverse st3
    match td.2 with
    | some e => (td.1, some e)
    | none => (td.1, r.2)

/-- A filter/skip pattern (`RegExp | string` in `RunOptions`).  A
`RegExp` instance is modelled as its match predicate on strings. -/
inductive Pat where
  | regex (r : String → Bool)
  | str (s : String)

/-- Whether `pat` occurs as a contiguous sublist of `hay`. -/
def subslice (pat : List Char) : List Char → Bool
  | [] => pat.isEmpty
  | c :: rest => pat.isPrefixOf (c :: rest) || subslice pat rest

/-- `String.prototype.includes`: substring containment. -/
def includes (hay pat : String) : Bool :=
  subslice pat.toList hay.toList

/-- `String.prototype.startsWith`, computed on the character list. -/
def strStarts (s pre : String) : Bool :=
  pre.toList.isPrefixOf s.toList

/-- `String.prototype.endsWith`, computed on the character list. -/
def strEnds (s suf : String) : Bool :=
  suf.toList.reverse.isPrefixOf s.toList.reverse

/-- `s.slice(1, s.length - 1)`: the string without its first and last
characters. -/
def sliceInner (s : String) : String :=
  String.mk ((s.toList.drop 1).dropLast)

/-- `createFilterFn` from `testing.ts`.  `compile` models
`(p, s) => new RegExp(p).test(s)`.  A `none` pattern is an absent option;
a `some (Pat.str "")` is falsy in JS, so `if (filter)` / `if (skip)`
skip the block, exactly like `none`.  Slash-delimited strings are
compiled to regexes for `filter` only; a `skip` string is always used as
a plain substring. -/
def createFilterFn {σ : Type} (compile : String → String → Bool)
    (filter skip : Option Pat) (d : Test σ) : Bool :=
  let passes := true
  let passes :=
    match filter with
    | none => passes
    | some (Pat.regex r) => passes && r d.name
    | some (Pat.str s) =>
      if s == "" then passes
      else if strStarts s "/" && strEnds s "/" then
        passes && compile (sliceInner s) d.name
      else passes && includes d.name s
  match skip with
  | none => passes
  | some (Pat.regex r) => passes && !(r d.name)
  | some (Pat.str s) =>
    if s == "" then passes
    else passes && !(includes d.name s)

/-- The counters of `TestRunner.stats`. -/
structure Stats where
  filtered : Nat
  ignored : Nat
  passed : Nat
  failed : Nat
  deriving DecidableEq, Repr

/-- The state computed by the `TestRunner` constructor. -/
structure Runner (σ : Type) where
  usedOnly : Bool
  testsToRun : List (Test σ)
  filtered : Nat
  failFast : Bool

/-- The `TestRunner` constructor: compute the `only` subset; if it is
non-empty it replaces the registry as the eligible set and `usedOnly` is
recorded; then the filter predicate selects `testsToRun`, and `filtered`
is the eligible count minus the runnable count. -/
def mkRunner {σ : Type} (tests : List (Test σ))
    (filterFn : Test σ → Bool) (failFast : Bool) : Runner σ :=
  let onlyTests := tests.filter (fun t => t.only)
  let usedOnly := !onlyTests.isEmpty
  let unfilteredTests := if usedOnly then onlyTests else tests
  let testsToRun := unfilteredTests.filter filterFn
  { usedOnly := usedOnly, testsToRun := testsToRun,
    filtered := unfilteredTests.length - testsToRun.length,
    failFast := failFast }

/-- State threaded through the runner's iteration: the execution state
of the wrapped functions, the wall clock in milliseconds, the emitted
event stream, the aggregate counters and the ordered outcome list. -/
structure RunSt (σ : Type) where
  exec : ExecSt σ
  clock : Nat
  events : List Ev
  stats : Stats
  results : List TestEnd

/-- One iteration of the runner's `for` loop body, up to and including
the `testEnd` event: emit `testStart`; an ignored test records an
`ignored` outcome with zero duration; otherwise the wrapped function is
raced against the per-test timer (`timeout` in `utils.ts`).  On success
the duration is the elapsed time; on timeout or thrown error the
recorded outcome is `failed` with the error attached — and, as in the
source, `end` is never reassigned on that path, so the recorded duration
is `0`.  When the timer fires first the pending wrapped function keeps
running in the background: its state effects still happen, only its
result is discarded. -/
def runTest {σ : Type} (t : Test σ) (r : RunSt σ) : RunSt σ × TestEnd :=
  let r0 : RunSt σ := { r with events := r.events ++ [Ev.testStart t.name] }
  if t.ignore then
    let msg : TestEnd := { name := t.name, duration := 0, status := Status.ignored, error := none }
    ({ r0 with events := r0.events ++ [Ev.testEnd msg],
               results := r0.results ++ [msg],
               stats := { r0.stats with ignored := r0.stats.ignored + 1 } }, msg)
  else
    let w := runWrapped t r0.exec
    let elapsed := min t.time t.timeoutMs
    let err : Option Err :=
      if t.timeoutMs < t.time then some (Err.timeoutAfter t.timeoutMs) else w.2
    match err with
    | none =>
      let msg : TestEnd := { name := t.name, duration := elapsed, status := Status.passed, error := none }
      ({ r0 with exec := w.1, clock := r0.clock + elapsed,
                 events := r0.events ++ [Ev.testEnd msg],
                 results := r0.results ++ [msg],
                 stats := { r0.stats with passed := r0.stats.passed + 1 } }, msg)
    | some e =>
      let msg : TestEnd := { name := t.name, duration := 0, status := Status.failed, error := some e }
      ({ r0 with exec := w.1, clock := r0.clock + elapsed,
                 events := r0.events ++ [Ev.testEnd msg],
                 results := r0.results ++ [msg],
                 stats := { r0.stats with failed := r0.stats.failed + 1 } }, msg)

/-- The runner's `for` loop: after each outcome, when fail-fast is on and
the outcome carries an error, iteration stops immediately. -/
def runTests {σ : Type} (failFast : Bool) : List (Test σ) → RunSt σ → RunSt σ
  | [], r => r
  | t :: rest, r =>
    let step := runTest t r
    if failFast && step.2.error.isSome then step.1
    else runTests failFast rest step.1

/-- The final `end` event payload of a runner iteration. -/
def endPayload {σ : Type} (usedOnly : Bool) (r : RunSt σ) : SuiteEnd :=
  { usedOnly := usedOnly, duration := r.clock, results := r.results,
    filtered := r.stats.filtered, ignored := r.stats.ignored,
    passed := r.stats.passed, failed := r.stats.failed, timeoutMs := none }

/-- The initial iteration state of a runner drain: `start` event emitted,
clock at the suite start, `filtered` already computed by the
constructor. -/
def initRunSt {σ : Type} (R : Runner σ) (ex : ExecSt σ) : RunSt σ :=
  { exec := ex, clock := 0,
    events := [Ev.start (R.testsToRun.map (fun t => t.name))],
    stats := { filtered := R.filtered, ignored := 0, passed := 0, failed := 0 },
    results := [] }

/-- A full drain of `TestRunner[Symbol.asyncIterator]` with no consumer
break: the `start` event, the per-test events, then the single `end`
event carrying the aggregate counts, the `usedOnly` flag, the total
elapsed duration and the ordered outcomes. -/
def runnerRun {σ : Type} (tests : List (Test σ)) (filterFn : Test σ → Bool)
    (failFast : Bool) (ex : ExecSt σ) : RunSt σ :=
  let R := mkRunner tests filterFn failFast
  let r := runTests R.failFast R.testsToRun (initRunSt R ex)
  { r with events := r.events ++ [Ev.endEv (endPayload R.usedOnly r)] }

/-- The run options of `model.ts` (`RunOptions`), already merged with the
suite defaults: `_Suite.run` receives `{...this.options, ...opts}` and
this model takes that merged record directly.  `timeoutOpt` is the
suite-level timeout (`0` and absence are both falsy in
`if (options.timeout)`). -/
structure RunOpts where
  reset : Bool := false
  timeoutOpt : Option Nat := none
  exitFlag : Bool := true
  failFast : Bool := false
  filter : Option Pat := none
  skip : Option Pat := none

/-- The whole `_Suite` state: the frame store, the context stack (frame
indices, bottom first; `top()` is the last), the registry of wrapped
tests, and the deferred result cache.  `pendingProp` models the
`pending` property of the object returned by `deferred()`: it is
initialised to `true` and — because `return { pending, ... }` copies the
local variable by value and the `.finally` callback only reassigns the
local — it is never set to `false` afterwards. -/
structure SuiteSt (σ : Type) where
  name : String
  options : RunOpts
  frames : List (Frame σ)
  stack : List Nat
  registry : List (Test σ)
  resolved : Option SuiteEnd
  pendingProp : Bool

/-- The `_Suite` constructor: a fresh root frame named after the suite. -/
def initSuite (σ : Type) (name : String) (opts : RunOpts) : SuiteSt σ :=
  { name := name, options := opts, frames := [newContext σ name],
    stack := [0], registry := [], resolved := none, pendingProp := true }

/-- `_Suite.reset`: a fresh deferred and a fresh root frame; the old
frames stay in the store but nothing references them any more. -/
def resetSuite {σ : Type} (st : SuiteSt σ) : SuiteSt σ :=
  { st with resolved := none, pendingProp := true, registry := [],
            frames := st.frames ++ [newContext σ st.name],
            stack := [st.frames.length] }

/-- The explicit inputs of a `test()` registration after the defaults
`{ignore: false, only: false, timeout: 2000}` have been merged. -/
structure TestInput (σ : Type) where
  name : String
  body : σ → σ × Option Err
  time : Nat := 0
  ignore : Bool := false
  only : Bool := false
  timeoutMs : Nat := 2000

/-- Append a hook to one phase list of a frame. -/
def pushHook {σ : Type} (ph : HPhase) (h : Hook σ) (f : Frame σ) : Frame σ :=
  match ph with
  | HPhase.bAll => { f with beforeAll := f.beforeAll ++ [h] }
  | HPhase.bEach => { f with beforeEach := f.beforeEach ++ [h] }
  | HPhase.aEach => { f with afterEach := f.afterEach ++ [h] }
  | HPhase.aAll => { f with afterAll := f.afterAll ++ [h] }

/-- Hook registration (`beforeAll`/`beforeEach`/`afterEach`/`afterAll`
methods): append to the corresponding list of the current top frame. -/
def addHook {σ : Type} (ph : HPhase) (h : Hook σ) (st : SuiteSt σ) : SuiteSt σ :=
  match st.stack.getLast? with
  | none => st
  | some g => { st with frames := updFr st.frames g (pushHook ph h) }

/-- The fully qualified name of a test registered with the given stack:
the ancestor frame names, then the test's own name, joined by `" > "`. -/
def qualify {σ : Type} (st : SuiteSt σ) (n : String) : String :=
  String.intercalate " > " ((st.stack.map (fun g => (getFr st.frames g).name)) ++ [n])

/-- Increment `waiting` on a frame. -/
def bumpWaiting {σ : Type} (f : Frame σ) : Frame σ := { f with waiting := f.waiting + 1 }

/-- Increment `only` on a frame. -/
def bumpOnly {σ : Type} (f : Frame σ) : Frame σ := { f with only := f.only + 1 }

/-- `_Suite.test`: when the test is not ignored, every stack frame's
`waiting` counter is incremented; when it is an `only` test, every stack
frame's `only` counter is incremented; the name is qualified with the
ancestor names; the stack is copied as the snapshot and the wrapped test
is appended to the registry. -/
def regTest {σ : Type} (ti : TestInput σ) (st : SuiteSt σ) : SuiteSt σ :=
  let frames1 := if ti.ignore then st.frames else updEach bumpWaiting st.stack st.frames
  let frames2 := if ti.only then updEach bumpOnly st.stack frames1 else frames1
  let t : Test σ :=
    { name := qualify st ti.name, body := ti.body, time := ti.time,
      ignore := ti.ignore, only := ti.only, timeoutMs := ti.timeoutMs,
      snapshot := st.stack }
  { st with frames := frames2, registry := st.registry ++ [t] }

/-- One registration-time operation on a suite.  `openGroup`/`closeGroup`
are the push and pop that `group(name, fn)` performs around its
definition callback; the source only produces balanced pairs, so the pop
is guarded to never remove the root frame. -/
inductive Op (σ : Type) where
  | test (ti : TestInput σ)
  | hookAdd (ph : HPhase) (h : Hook σ)
  | openGroup (name : String)
  | closeGroup

/-- Apply one registration operation. -/
def applyOp {σ : Type} (st : SuiteSt σ) : Op σ → SuiteSt σ
  | Op.test ti => regTest ti st
  | Op.hookAdd ph h => addHook ph h st
  | Op.openGroup n =>
    { st with frames := st.frames ++ [newContext σ n],
              stack := st.stack ++ [st.frames.length] }
  | Op.closeGroup =>
    if st.stack.length ≤ 1 then st else { st with stack := st.stack.dropLast }

/-- Apply a sequence of registration operations. -/
def applyOps {σ : Type} (ops : List (Op σ)) (st : SuiteSt σ) : SuiteSt σ :=
  ops.foldl applyOp st

/-- Whether the suite-level timer (a `setTimeout` armed when
`options.timeout` is truthy) has fired by clock time `c`. -/
def timedOutAt (t? : Option Nat) (c : Nat) : Bool :=
  match t? with
  | none => false
  | some t => t != 0 && t ≤ c

/-- The drain loop of `_Suite.run`: the consumer checks the `timedOut`
flag before handling each message produced by the runner, and `break`s
when it is set, which stops the lazy generator so later tests never run.
The boolean result records whether the loop broke out, in which case the
`end` message was never captured. -/
def driveTests {σ : Type} (t? : Option Nat) (failFast : Bool) :
    List (Test σ) → RunSt σ → RunSt σ × Bool
  | [], r => (r, false)
  | t :: rest, r =>
    if timedOutAt t? r.clock then (r, true)
    else
      let step := runTest t r
      if timedOutAt t? step.1.clock then (step.1, true)
      else if failFast && step.2.error.isSome then (step.1, false)
      else driveTests t? failFast rest step.1

/-- The outcome of one `_Suite.run` call: the resolved `SuiteEnd`, a flag
recording whether `exit(1)` was triggered (in which case the JS function
never actually returns), the updated suite and the updated world. -/
structure RunOutcome (σ : Type) where
  result : SuiteEnd
  exited : Bool
  suite : SuiteSt σ
  world : σ
  events : List Ev
  log : List LEv

/-- The execution path of `_Suite.run` (everything after the pending
check): build the runner over the live registry, drain it with the
suite-level timer checks, merge the `timeout` field when the timer
fired, resolve the deferred (a no-op when it is already resolved), run
the exit check, and reset when requested. -/
def suiteRunExec {σ : Type} (compile : String → String → Bool)
    (opts : RunOpts) (st : SuiteSt σ) (w : σ) : RunOutcome σ :=
  let filterFn := createFilterFn compile opts.filter opts.skip
  let R := mkRunner st.registry filterFn opts.failFast
  let r0 : RunSt σ := initRunSt R { frames := st.frames, world := w, log := [] }
  let d := driveTests opts.timeoutOpt R.failFast R.testsToRun r0
  let r := d.1
  let r := if d.2 then r else { r with events := r.events ++ [Ev.endEv (endPayload R.usedOnly r)] }
  let endMsgOpt : Option SuiteEnd := if d.2 then none else some (endPayload R.usedOnly r)
  let endMsgOpt :=
    if timedOutAt opts.timeoutOpt r.clock then
      some { (endMsgOpt.getD emptyEndMsg) with timeoutMs := some (opts.timeoutOpt.getD 0) }
    else endMsgOpt
  let final := endMsgOpt.getD emptyEndMsg
  let exited :=
    match endMsgOpt with
    | some m => (m.failed != 0 || m.usedOnly) && opts.exitFlag
    | none => false
  let st1 : SuiteSt σ :=
    { st with frames := r.exec.frames, resolved := some (st.resolved.getD final) }
  let st2 := if exited then st1 else if opts.reset then resetSuite st1 else st1
  { result := final, exited := exited, suite := st2, world := r.exec.world,
    events := r.events, log := r.exec.log }

/-- `_Suite.run`: `if (!this.#cache.pending) return this.end;` — the
cached result short-circuit — followed by the execution path.  The guard
branch returns the value the deferred resolved to. -/
def suiteRun {σ : Type} (compile : String → String → Bool)
    (opts : RunOpts) (st : SuiteSt σ) (w : σ) : RunOutcome σ :=
  if st.pendingProp = false then
    { result := st.resolved.getD emptyEndMsg, exited := false, suite := st,
      world := w, events := [], log := [] }
  else suiteRunExec compile opts st w

/-- A suite built by a sequence of registration operations. -/
def suiteOf (σ : Type) (ops : List (Op σ)) (name : String) (opts : RunOpts) : SuiteSt σ :=
  applyOps ops (initSuite σ name opts)

/-- Whether a non-ignored test's snapshot contains the frame index `g`:
exactly the tests whose registration incremented `g`'s `waiting` counter
and whose completion increments its `completed` counter. -/
def touches {σ : Type} (g : Nat) (t : Test σ) : Bool :=
  !t.ignore && t.snapshot.contains g

/-- Whether an `only` test's snapshot contains the frame index `g`:
exactly the tests whose registration incremented `g`'s `only` counter. -/
def touchesOnly {σ : Type} (g : Nat) (t : Test σ) : Bool :=
  t.only && t.snapshot.contains g

/-- The number of tests that contributed to `passed + failed + ignored`. -/
def statSum (s : Stats) : Nat :=
  s.ignored + s.passed + s.failed

/-- Event classifiers for the emitted stream. -/
def isTestEndEv : Ev → Bool
  | Ev.testEnd _ => true
  | _ => false

def isTestStartEv : Ev → Bool
  | Ev.testStart _ => true
  | _ => false

def isEndEv : Ev → Bool
  | Ev.endEv _ => true
  | _ => false

def isTestStartFor (n : String) : Ev → Bool
  | Ev.testStart m => m == n
  | _ => false

def isTestEndFor (n : String) : Ev → Bool
  | Ev.testEnd e => e.name == n
  | _ => false

/-- Log entries produced only by the teardown phase of a wrapped test. -/
def isTeardownEv : LEv → Bool
  | LEv.phase HPhase.aEach _ => true
  | LEv.phase HPhase.aAll _ => true
  | _ => false

/-- The hook callbacks of a list all resolve (no rejection), whatever the
world. -/
def hookListOk {σ : Type} (hs : List (Hook σ)) : Prop :=
  ∀ h ∈ hs, ∀ w, (h.run w).2 = none

/-- All four hook lists of a frame resolve. -/
def frameOk {σ : Type} (f : Frame σ) : Prop :=
  hookListOk f.beforeAll ∧ hookListOk f.beforeEach ∧
  hookListOk f.afterEach ∧ hookListOk f.afterAll

/-- Every hook registered anywhere in the store resolves. -/
def hooksOk {σ : Type} (fs : List (Frame σ)) : Prop :=
  ∀ f ∈ fs, frameOk f

/-- The instrumentation-log chunk appended by a successful setup phase:
it depends only on the (unchanging) frame store and the snapshot. -/
def setupChunk {σ : Type} (fs : List (Frame σ)) : List Nat → List LEv
  | [] => []
  | g :: rest =>
    let fr := getFr fs g
    (if fr.completed == 0 then
       LEv.phase HPhase.bAll g :: fr.beforeAll.map (fun h => LEv.hook h.id)
     else [])
    ++ (LEv.phase HPhase.bEach g :: fr.beforeEach.map (fun h => LEv.hook h.id))
    ++ setupChunk fs rest

/-- The instrumentation-log chunk appended by a successful teardown
phase over the (already bookkept) frame store. -/
def teardownChunk {σ : Type} (fs : List (Frame σ)) : List Nat → List LEv
  | [] => []
  | g :: rest =>
    let fr := getFr fs g
    (LEv.phase HPhase.aEach g :: fr.afterEach.map (fun h => LEv.hook h.id))
    ++ (if fireAfterAll fr then
          LEv.phase HPhase.aAll g :: fr.afterAll.map (fun h => LEv.hook h.id)
        else [])
    ++ teardownChunk fs rest

/-- The frame store after registering via `ops` and then executing the
first `k` eligible tests of one run cycle with the given merged options:
the states a run cycle can leave the counters in (fail-fast and the
suite-level timer only ever cut the executed sequence to a shorter
prefix). -/
def framesAfter {σ : Type} (compile : String → String → Bool) (opts : RunOpts)
    (st : SuiteSt σ) (w : σ) (k : Nat) : List (Frame σ) :=
  let f := createFilterFn compile opts.filter opts.skip
  let R := mkRunner st.registry f opts.failFast
  (runTests false (R.testsToRun.take k)
    (initRunSt R { frames := st.frames, world := w, log := [] })).exec.frames

/-- How a pattern "matches" a fully qualified name under the filter
rules of the claims: a `RegExp` by testing it, a `"/pattern/"` string by
compiling the inside to a regex, any other string by substring
containment. -/
def matchesByFilterRules (compile : String → String → Bool)
    (p : Pat) (name : String) : Bool :=
  match p with
  | Pat.regex r => r name
  | Pat.str s =>
    if strStarts s "/" && strEnds s "/" then compile (sliceInner s) name
    else includes name s

/-- Modelled from the words of claim C6: a test is run iff (no filter, or
the filter matches by the filter rules) and (no skip, or the skip does
NOT match by the same rules — in particular a `"/pattern/"` skip string
is treated as a regex). -/
def claimRunsTest (compile : String → String → Bool)
    (filter skip : Option Pat) (name : String) : Bool :=
  (match filter with
   | none => true
   | some p => matchesByFilterRules compile p name)
  && (match skip with
      | none => true
      | some p => !(matchesByFilterRules compile p name))

/-- The amended filter/skip predicate: the filter side follows the
filter rules, but a skip string is always a plain substring test (no
`"/pattern/"` regex form), and an empty-string pattern counts as unset
(it is falsy in JS). -/
def amendedRunsTest (compile : String → String → Bool)
    (filter skip : Option Pat) (name : String) : Bool :=
  (match filter with
   | none => true
   | some (Pat.regex r) => r name
   | some (Pat.str s) =>
     if s == "" then true else matchesByFilterRules compile (Pat.str s) name)
  && (match skip with
      | none => true
      | some (Pat.regex r) => !(r name)
      | some (Pat.str s) =>
        if s == "" then true else !(includes name s))

/-- A stand-in for `new RegExp(p).test(s)` that is faithful for patterns
without regex metacharacters: such a pattern matches exactly the strings
that contain it. -/
def substrCompile : String → String → Bool :=
  fun p s => includes s p

/-- A hook that records its id and always resolves. -/
def noopHook (σ : Type) (i : Nat) : Hook σ :=
  { id := i, run := fun w => (w, none) }

/-- A hook that records its id and always rejects with `e`. -/
def throwHook (σ : Type) (i : Nat) (e : Err) : Hook σ :=
  { id := i, run := fun w => (w, some e) }

/-- A test body that settles immediately and resolves. -/
def pureBody (σ : Type) : σ → σ × Option Err :=
  fun w => (w, none)

/-- Concrete instance for C2: the spec's scenario — one test with a
10 ms timeout whose body awaits 20 ms before resolving. -/
def c2suite : SuiteSt Unit :=
  suiteOf Unit
    [Op.test { name := "timeout", body := pureBody Unit, time := 20, timeoutMs := 10 }]
    "subtests" {}

def c2outcome : RunOutcome Unit :=
  suiteRun substrCompile { exitFlag := false } c2suite ()

/-- Concrete instance for C1: a test whose body counts its invocations in
the world and rejects from the second invocation on. -/
def c1suite : SuiteSt Nat :=
  suiteOf Nat
    [Op.test { name := "t",
               body := fun n => (n + 1, if n == 0 then none else some (Err.assertionFailed "ran again")) }]
    "s" {}

def c1first : RunOutcome Nat :=
  suiteRun substrCompile { exitFlag := false } c1suite 0

def c1second : RunOutcome Nat :=
  suiteRun substrCompile { exitFlag := false } c1first.suite c1first.world

/-- Concrete instance for C4: a group (frame index 1) with an `afterAll`
hook and two tests, one of which is excluded by the filter. -/
def c4suite : SuiteSt Unit :=
  suiteOf Unit
    [Op.openGroup "g", Op.hookAdd HPhase.aAll (noopHook Unit 7),
     Op.test { name := "a", body := pureBody Unit },
     Op.test { name := "b", body := pureBody Unit },
     Op.closeGroup]
    "s" {}

def c4outcome : RunOutcome Unit :=
  suiteRun substrCompile { exitFlag := false, filter := some (Pat.str "a") } c4suite ()

/-- Concrete instance for C5: a single registration with both `ignore`
and `only` set. -/
def c5suite : SuiteSt Unit :=
  suiteOf Unit
    [Op.test { name := "t", body := pureBody Unit, ignore := true, only := true }]
    "s" {}

/-- Concrete instance for C6: a registered test whose qualified name
`"s > xyz"` contains `x`, together with a skip of the string form
`"/x/"`. -/
def c6suite : SuiteSt Unit :=
  suiteOf Unit [Op.test { name := "xyz", body := pureBody Unit }] "s" {}

def c6test : Test Unit :=
  (c6suite.registry).getD 0
    { name := "", body := pureBody Unit, time := 0, ignore := false,
      only := false, timeoutMs := 0, snapshot := [] }

/-- Concrete instance for C3: a `beforeEach` hook that rejects and an
`afterEach` hook, around one test. -/
def c3suite : SuiteSt Unit :=
  suiteOf Unit
    [Op.hookAdd HPhase.bEach (throwHook Unit 3 (Err.assertionFailed "beforeEach boom")),
     Op.hookAdd HPhase.aEach (noopHook Unit 9),
     Op.test { name := "t", body := pureBody Unit }]
    "s" {}

def c3outcome : RunOutcome Unit :=
  suiteRun substrCompile { exitFlag := false } c3suite ()

/-- Structural invariants of every suite state reachable by registration
operations: the stack is a non-empty duplicate-free list of valid store
indices, snapshots are duplicate-free valid index lists, `waiting` and
`only` count exactly the registered non-ignored (resp. `only`) tests
whose snapshot contains the frame, and the completion counters are still
zero. -/
structure RegInv {σ : Type} (st : SuiteSt σ) : Prop where
  stackNE : st.stack ≠ []
  stackNodup : st.stack.Nodup
  stackLt : ∀ g ∈ st.stack, g < st.frames.length
  snapNodup : ∀ t ∈ st.registry, t.snapshot.Nodup
  snapLt : ∀ t ∈ st.registry, ∀ g ∈ t.snapshot, g < st.frames.length
  waitingEq : ∀ g, (getFr st.frames g).waiting = st.registry.countP (touches g)
  onlyEq : ∀ g, (getFr st.frames g).only = st.registry.countP (touchesOnly g)
  completedZero : ∀ g, (getFr st.frames g).completed = 0
  completedOnlyZero : ∀ g, (getFr st.frames g).completedOnly = 0

/-- A minimal registered test with the given flags (used to instantiate
the general theorems at concrete inputs). -/
def mkT (σ : Type) (nm : String) (only ignore : Bool) : Test σ :=
  { name := nm, body := pureBody σ, time := 0, ignore := ignore,
    only := only, timeoutMs := 2000, snapshot := [] }

/-- A test whose body always rejects. -/
def mkTFail (σ : Type) (nm : String) : Test σ :=
  { name := nm, body := fun w => (w, some (Err.assertionFailed nm)), time := 0,
    ignore := false, only := false, timeoutMs := 2000, snapshot := [] }

/-- An empty execution state over the trivial world. -/
def exU : ExecSt Unit :=
  { frames := [], world := (), log := [] }

/-! ### Lemmas and theorems -/

theorem updFr_length {σ : Type} (fs : List (Frame σ)) (g : Nat) (h : Frame σ → Frame σ) :
    (updFr fs g h).length = fs.length := by
  induction fs generalizing g with
  | nil => rfl
  | cons f fs ih =>
    cases g with
    | zero => rfl
    | succ n => simpa [updFr] using ih n

theorem updFr_out {σ : Type} (fs : List (Frame σ)) (g : Nat) (h : Frame σ → Frame σ)
    (hg : fs.length ≤ g) : updFr fs g h = fs := by
  induction fs generalizing g with
  | nil => rfl
  | cons f fs ih =>
    cases g with
    | zero => exact absurd hg (by simp)
    | succ n => simp only [updFr]; rw [ih n (Nat.le_of_succ_le_succ hg)]

theorem getFr_updFr_same {σ : Type} (fs : List (Frame σ)) (g : Nat) (h : Frame σ → Frame σ)
    (hg : g < fs.length) : getFr (updFr fs g h) g = h (getFr fs g) := by
  induction fs generalizing g with
  | nil => exact absurd hg (by simp)
  | cons f fs ih =>
    cases g with
    | zero => rfl
    | succ n =>
      simp only [updFr, getFr, List.getD_cons_succ]
      exact ih n (Nat.lt_of_succ_lt_succ hg)

theorem getFr_updFr_ne {σ : Type} (fs : List (Frame σ)) (g g' : Nat) (h : Frame σ → Frame σ)
    (hne : g ≠ g') : getFr (updFr fs g h) g' = getFr fs g' := by
  induction fs generalizing g g' with
  | nil => rfl
  | cons f fs ih =>
    cases g with
    | zero =>
      cases g' with
      | zero => exact absurd rfl hne
      | succ m => rfl
    | succ n =>
      cases g' with
      | zero => rfl
      | succ m =>
        simp only [updFr, getFr, List.getD_cons_succ]
        exact ih n m fun he => hne (by rw [he])

/-- Every frame of an updated store is an old frame or an updated old
frame. -/
theorem mem_updFr {σ : Type} (fs : List (Frame σ)) (g : Nat) (h : Frame σ → Frame σ)
    (f' : Frame σ) (hm : f' ∈ updFr fs g h) : f' ∈ fs ∨ ∃ f ∈ fs, f' = h f := by
  induction fs generalizing g with
  | nil => exact absurd hm (by simp [updFr])
  | cons f fs ih =>
    cases g with
    | zero =>
      rcases (List.mem_cons).1 hm with h1 | h1
      · exact Or.inr ⟨f, List.mem_cons_self f fs, h1⟩
      · exact Or.inl (List.mem_cons_of_mem f h1)
    | succ n =>
      rcases (List.mem_cons).1 hm with h1 | h1
      · exact Or.inl (h1 ▸ List.mem_cons_self f fs)
      · rcases ih n h1 with h2 | ⟨f0, hf0, he⟩
        · exact Or.inl (List.mem_cons_of_mem f h2)
        · exact Or.inr ⟨f0, List.mem_cons_of_mem f hf0, he⟩

theorem updEach_length {σ : Type} (h : Frame σ → Frame σ) (idxs : List Nat)
    (fs : List (Frame σ)) : (updEach h idxs fs).length = fs.length := by
  induction idxs generalizing fs with
  | nil => rfl
  | cons g rest ih => simp only [updEach]; rw [ih, updFr_length]

theorem getFr_updEach_notMem {σ : Type} (h : Frame σ → Frame σ) (idxs : List Nat)
    (fs : List (Frame σ)) (g : Nat) (hnm : g ∉ idxs) :
    getFr (updEach h idxs fs) g = getFr fs g := by
  induction idxs generalizing fs with
  | nil => rfl
  | cons i rest ih =>
    simp only [updEach]
    rw [ih _ (fun hi => hnm (List.mem_cons_of_mem i hi)),
        getFr_updFr_ne _ _ _ _ (fun he => hnm (by rw [← he]; exact List.mem_cons_self i rest))]

theorem getFr_updEach_mem {σ : Type} (h : Frame σ → Frame σ) (idxs : List Nat)
    (fs : List (Frame σ)) (g : Nat) (hnd : idxs.Nodup) (hm : g ∈ idxs)
    (hlt : g < fs.length) : getFr (updEach h idxs fs) g = h (getFr fs g) := by
  induction idxs generalizing fs with
  | nil => exact absurd hm (by simp)
  | cons i rest ih =>
    rcases (List.mem_cons).1 hm with he | hmem
    · subst he
      simp only [updEach]
      rw [getFr_updEach_notMem _ _ _ _ (List.nodup_cons.mp hnd).1,
          getFr_updFr_same _ _ _ hlt]
    · simp only [updEach]
      rw [ih _ (List.nodup_cons.mp hnd).2 hmem (by rw [updFr_length]; exact hlt)]
      congr 1
      exact getFr_updFr_ne _ _ _ _
        (fun he2 => (List.nodup_cons.mp hnd).1 (by rw [he2]; exact hmem))

/-- A projection that the per-index update preserves is preserved at
every index of the whole store, with no disjointness assumptions. -/
theorem getFr_updEach_proj {σ : Type} {α : Type} (P : Frame σ → α)
    (h : Frame σ → Frame σ) (hP : ∀ f, P (h f) = P f) (idxs : List Nat)
    (fs : List (Frame σ)) (g : Nat) :
    P (getFr (updEach h idxs fs) g) = P (getFr fs g) := by
  induction idxs generalizing fs with
  | nil => rfl
  | cons i rest ih =>
    simp only [updEach]
    rw [ih]
    by_cases hlt : i < fs.length
    · by_cases he : i = g
      · subst he; rw [getFr_updFr_same _ _ _ hlt, hP]
      · rw [getFr_updFr_ne _ _ _ _ he]
    · rw [updFr_out _ _ _ (Nat.le_of_not_lt hlt)]

theorem callAll_frames {σ : Type} (hs : List (Hook σ)) (st : ExecSt σ) :
    (callAll hs st).1.frames = st.frames := by
  induction hs generalizing st with
  | nil => rfl
  | cons h hs ih => simpa [callAll] using ih _

theorem callAll_log {σ : Type} (hs : List (Hook σ)) (st : ExecSt σ) :
    (callAll hs st).1.log = st.log ++ hs.map (fun h => LEv.hook h.id) := by
  induction hs generalizing st with
  | nil => simp [callAll]
  | cons h hs ih => simp [callAll, ih]

theorem callAll_ok {σ : Type} (hs : List (Hook σ)) (st : ExecSt σ)
    (hok : hookListOk hs) : (callAll hs st).2 = none := by
  induction hs generalizing st with
  | nil => rfl
  | cons h hs ih =>
    simp only [callAll]
    rw [hok h (List.mem_cons_self h hs) st.world]
    exact ih _ (fun h' hm w => hok h' (List.mem_cons_of_mem h hm) w)

theorem getFr_mem {σ : Type} (fs : List (Frame σ)) (g : Nat) (h : g < fs.length) :
    getFr fs g ∈ fs := by
  unfold getFr
  rw [List.getD_eq_getElem?_getD, List.getElem?_eq_getElem h]
  exact List.getElem_mem h

theorem frameOk_default {σ : Type} : frameOk (default : Frame σ) :=
  ⟨fun _ hm => absurd hm (List.not_mem_nil _), fun _ hm => absurd hm (List.not_mem_nil _),
   fun _ hm => absurd hm (List.not_mem_nil _), fun _ hm => absurd hm (List.not_mem_nil _)⟩

theorem frameOk_getFr {σ : Type} (fs : List (Frame σ)) (hok : hooksOk fs) (g : Nat) :
    frameOk (getFr fs g) := by
  by_cases h : g < fs.length
  · exact hok _ (getFr_mem fs g h)
  · unfold getFr
    rw [List.getD_eq_getElem?_getD, List.getElem?_eq_none (Nat.le_of_not_lt h)]
    exact frameOk_default

theorem frameOk_bumpFrame {σ : Type} (o : Bool) (f : Frame σ) (h : frameOk f) :
    frameOk (bumpFrame o f) := h

theorem hooksOk_updEach {σ : Type} (h : Frame σ → Frame σ)
    (hpres : ∀ f, frameOk f → frameOk (h f)) (idxs : List Nat)
    (fs : List (Frame σ)) (hok : hooksOk fs) : hooksOk (updEach h idxs fs) := by
  induction idxs generalizing fs with
  | nil => exact hok
  | cons i rest ih =>
    refine ih _ (fun f' hm => ?_)
    rcases mem_updFr fs i h f' hm with hf | ⟨f, hf, he⟩
    · exact hok f' hf
    · exact he ▸ hpres f (hok f hf)

theorem hooksOk_bookkeep {σ : Type} (o : Bool) (snap : List Nat)
    (fs : List (Frame σ)) (hok : hooksOk fs) : hooksOk (bookkeep o snap fs) :=
  hooksOk_updEach _ (frameOk_bumpFrame o) snap fs hok

theorem setupPhase_frames {σ : Type} : ∀ (snap : List Nat) (st : ExecSt σ),
    (setupPhase snap st).1.frames = st.frames := by
  intro snap
  induction snap with
  | nil => intro st; rfl
  | cons g rest ih =>
    intro st
    simp only [setupPhase]
    split
    · by_cases hc : (getFr st.frames g).completed == 0 <;>
        simp [hc, callAll_frames]
    · split
      · by_cases hc : (getFr st.frames g).completed == 0 <;>
          simp [hc, callAll_frames]
      · rw [ih]
        by_cases hc : (getFr st.frames g).completed == 0 <;>
          simp [hc, callAll_frames]

theorem teardownPhase_frames {σ : Type} : ∀ (snap : List Nat) (st : ExecSt σ),
    (teardownPhase snap st).1.frames = st.frames := by
  intro snap
  induction snap with
  | nil => intro st; rfl
  | cons g rest ih =>
    intro st
    simp only [teardownPhase]
    split
    · simp [callAll_frames]
    · split
      · by_cases hc : fireAfterAll (getFr st.frames g) <;>
          simp [hc, callAll_frames]
      · rw [ih]
        by_cases hc : fireAfterAll (getFr st.frames g) <;>
          simp [hc, callAll_frames]

theorem setupPhase_ok {σ : Type} : ∀ (snap : List Nat) (st : ExecSt σ),
    hooksOk st.frames →
    (setupPhase snap st).2 = none ∧
    (setupPhase snap st).1.log = st.log ++ setupChunk st.frames snap := by
  intro snap
  induction snap with
  | nil => intro st _; exact ⟨rfl, by simp [setupPhase, setupChunk]⟩
  | cons g rest ih =>
    intro st hok
    obtain ⟨hba, hbe, _, _⟩ := frameOk_getFr st.frames hok g
    simp only [setupPhase]
    by_cases hc : ((getFr st.frames g).completed == 0) = true
    · rw [if_pos hc]
      have e1 := callAll_ok (getFr st.frames g).beforeAll
        { st with log := st.log ++ [LEv.phase HPhase.bAll g] } hba
      have l1 := callAll_log (getFr st.frames g).beforeAll
        { st with log := st.log ++ [LEv.phase HPhase.bAll g] }
      have f1 := callAll_frames (getFr st.frames g).beforeAll
        { st with log := st.log ++ [LEv.phase HPhase.bAll g] }
      simp only [e1]
      generalize hst1 : (callAll (getFr st.frames g).beforeAll
        { st with log := st.log ++ [LEv.phase HPhase.bAll g] }).1 = st1 at l1 f1
      have e2 := callAll_ok (getFr st.frames g).beforeEach
        { st1 with log := st1.log ++ [LEv.phase HPhase.bEach g] } hbe
      have l2 := callAll_log (getFr st.frames g).beforeEach
        { st1 with log := st1.log ++ [LEv.phase HPhase.bEach g] }
      have f2 := callAll_frames (getFr st.frames g).beforeEach
        { st1 with log := st1.log ++ [LEv.phase HPhase.bEach g] }
      simp only [e2]
      generalize hst2 : (callAll (getFr st.frames g).beforeEach
        { st1 with log := st1.log ++ [LEv.phase HPhase.bEach g] }).1 = st2 at l2 f2
      have hok2 : hooksOk st2.frames := by rw [f2, f1]; exact hok
      obtain ⟨ihe, ihl⟩ := ih st2 hok2
      refine ⟨ihe, ?_⟩
      rw [ihl, f2, f1, l2, l1]
      simp [setupChunk, hc]
    · rw [if_neg hc]
      have e2 := callAll_ok (getFr st.frames g).beforeEach
        { st with log := st.log ++ [LEv.phase HPhase.bEach g] } hbe
      have l2 := callAll_log (getFr st.frames g).beforeEach
        { st with log := st.log ++ [LEv.phase HPhase.bEach g] }
      have f2 := callAll_frames (getFr st.frames g).beforeEach
        { st with log := st.log ++ [LEv.phase HPhase.bEach g] }
      simp only [e2]
      generalize hst2 : (callAll (getFr st.frames g).beforeEach
        { st with log := st.log ++ [LEv.phase HPhase.bEach g] }).1 = st2 at l2 f2
      have hok2 : hooksOk st2.frames := by rw [f2]; exact hok
      obtain ⟨ihe, ihl⟩ := ih st2 hok2
      refine ⟨ihe, ?_⟩
      rw [ihl, f2, l2]
      simp [setupChunk, hc]

theorem teardownPhase_ok {σ : Type} : ∀ (snap : List Nat) (st : ExecSt σ),
    hooksOk st.frames →
    (teardownPhase snap st).2 = none ∧
    (teardownPhase snap st).1.log = st.log ++ teardownChunk st.frames snap := by
  intro snap
  induction snap with
  | nil => intro st _; exact ⟨rfl, by simp [teardownPhase, teardownChunk]⟩
  | cons g rest ih =>
    intro st hok
    obtain ⟨_, _, hae, haa⟩ := frameOk_getFr st.frames hok g
    simp only [teardownPhase]
    have e1 := callAll_ok (getFr st.frames g).afterEach
      { st with log := st.log ++ [LEv.phase HPhase.aEach g] } hae
    have l1 := callAll_log (getFr st.frames g).afterEach
      { st with log := st.log ++ [LEv.phase HPhase.aEach g] }
    have f1 := callAll_frames (getFr st.frames g).afterEach
      { st with log := st.log ++ [LEv.phase HPhase.aEach g] }
    simp only [e1]
    generalize hst1 : (callAll (getFr st.frames g).afterEach
      { st with log := st.log ++ [LEv.phase HPhase.aEach g] }).1 = st1 at l1 f1
    by_cases hc : fireAfterAll (getFr st.frames g) = true
    · rw [if_pos hc]
      have e2 := callAll_ok (getFr st.frames g).afterAll
        { st1 with log := st1.log ++ [LEv.phase HPhase.aAll g] } haa
      have l2 := callAll_log (getFr st.frames g).afterAll
        { st1 with log := st1.log ++ [LEv.phase HPhase.aAll g] }
      have f2 := callAll_frames (getFr st.frames g).afterAll
        { st1 with log := st1.log ++ [LEv.phase HPhase.aAll g] }
      simp only [e2]
      generalize hst2 : (callAll (getFr st.frames g).afterAll
        { st1 with log := st1.log ++ [LEv.phase HPhase.aAll g] }).1 = st2 at l2 f2
      have hok2 : hooksOk st2.frames := by rw [f2, f1]; exact hok
      obtain ⟨ihe, ihl⟩ := ih st2 hok2
      refine ⟨ihe, ?_⟩
      rw [ihl, f2, f1, l2, l1]
      simp [teardownChunk, hc]
    · rw [if_neg hc]
      have hok1 : hooksOk st1.frames := by rw [f1]; exact hok
      obtain ⟨ihe, ihl⟩ := ih st1 hok1
      refine ⟨ihe, ?_⟩
      rw [ihl, f1, l1]
      simp [teardownChunk, hc]

/-- Full characterisation of a wrapped test's execution when no hook
rejects: the frames are bookkept over the snapshot, the log grows by the
setup chunk, the body marker, and the teardown chunk over the reversed
snapshot evaluated on the bookkept store, and the wrapped function's
result is the body's thrown value. -/
theorem runWrapped_ok {σ : Type} (t : Test σ) (st : ExecSt σ) (hok : hooksOk st.frames) :
    (runWrapped t st).1.frames = bookkeep t.only t.snapshot st.frames ∧
    (runWrapped t st).1.log =
      st.log ++ setupChunk st.frames t.snapshot ++ [LEv.body t.name] ++
        teardownChunk (bookkeep t.only t.snapshot st.frames) t.snapshot.reverse ∧
    (runWrapped t st).2 = (t.body (setupPhase t.snapshot st).1.world).2 := by
  obtain ⟨he, hl⟩ := setupPhase_ok t.snapshot st hok
  have hf := setupPhase_frames t.snapshot st
  simp only [runWrapped, he]
  generalize hs1 : (setupPhase t.snapshot st).1 = s1 at hl hf ⊢
  have hok3 : hooksOk (bookkeep t.only t.snapshot s1.frames) := by
    rw [hf]; exact hooksOk_bookkeep _ _ _ hok
  obtain ⟨tde, tdl⟩ := teardownPhase_ok t.snapshot.reverse
    { frames := bookkeep t.only t.snapshot s1.frames,
      world := (t.body s1.world).1, log := s1.log ++ [LEv.body t.name] } hok3
  have tdf := teardownPhase_frames t.snapshot.reverse
    { frames := bookkeep t.only t.snapshot s1.frames,
      world := (t.body s1.world).1, log := s1.log ++ [LEv.body t.name] }
  simp only [tde]
  refine ⟨?_, ?_, trivial⟩
  · rw [tdf]
    show bookkeep t.only t.snapshot s1.frames = _
    rw [hf]
  · rw [tdl]
    show (s1.log ++ [LEv.body t.name]) ++
        teardownChunk (bookkeep t.only t.snapshot s1.frames) t.snapshot.reverse = _
    rw [hl, hf]


theorem getFr_out {σ : Type} (fs : List (Frame σ)) (g : Nat) (h : fs.length ≤ g) :
    getFr fs g = default := by
  unfold getFr
  rw [List.getD_eq_getElem?_getD, List.getElem?_eq_none h]
  rfl

theorem getFr_updEach_out {σ : Type} (h : Frame σ → Frame σ) (idxs : List Nat)
    (fs : List (Frame σ)) (g : Nat) (hg : fs.length ≤ g) :
    getFr (updEach h idxs fs) g = getFr fs g := by
  rw [getFr_out _ _ hg, getFr_out]
  rw [updEach_length]
  exact hg

theorem count_map_hook_phase {σ : Type} (hs : List (Hook σ)) (p : HPhase) (g : Nat) :
    (hs.map (fun h => LEv.hook h.id)).count (LEv.phase p g) = 0 := by
  rw [List.count_eq_zero]
  simp

theorem count_map_hook_body {σ : Type} (hs : List (Hook σ)) (n : String) :
    (hs.map (fun h => LEv.hook h.id)).count (LEv.body n) = 0 := by
  rw [List.count_eq_zero]
  simp

theorem setupChunk_count_aAll {σ : Type} (fs : List (Frame σ)) (snap : List Nat) (g : Nat) :
    (setupChunk fs snap).count (LEv.phase HPhase.aAll g) = 0 := by
  induction snap with
  | nil => rfl
  | cons i rest ih =>
    simp only [setupChunk, List.count_append, ih]
    split <;> simp [List.count_cons, count_map_hook_phase]

theorem setupChunk_count_aEach {σ : Type} (fs : List (Frame σ)) (snap : List Nat) (g : Nat) :
    (setupChunk fs snap).count (LEv.phase HPhase.aEach g) = 0 := by
  induction snap with
  | nil => rfl
  | cons i rest ih =>
    simp only [setupChunk, List.count_append, ih]
    split <;> simp [List.count_cons, count_map_hook_phase]

theorem teardownChunk_count_bAll {σ : Type} (fs : List (Frame σ)) (snap : List Nat) (g : Nat) :
    (teardownChunk fs snap).count (LEv.phase HPhase.bAll g) = 0 := by
  induction snap with
  | nil => rfl
  | cons i rest ih =>
    simp only [teardownChunk, List.count_append, ih]
    split <;> simp [List.count_cons, count_map_hook_phase]

theorem setupChunk_count_bAll_notMem {σ : Type} (fs : List (Frame σ)) (snap : List Nat)
    (g : Nat) (hg : g ∉ snap) :
    (setupChunk fs snap).count (LEv.phase HPhase.bAll g) = 0 := by
  induction snap with
  | nil => rfl
  | cons i rest ih =>
    have hgi : g ≠ i := fun he => hg (he ▸ List.mem_cons_self i rest)
    simp only [setupChunk, List.count_append,
      ih (fun hm => hg (List.mem_cons_of_mem i hm))]
    split <;> simp [List.count_cons, count_map_hook_phase, hgi, Ne.symm hgi]

theorem setupChunk_count_bAll_mem {σ : Type} (fs : List (Frame σ)) (snap : List Nat)
    (g : Nat) (hnd : snap.Nodup) (hg : g ∈ snap) :
    (setupChunk fs snap).count (LEv.phase HPhase.bAll g) =
      if (getFr fs g).completed = 0 then 1 else 0 := by
  induction snap with
  | nil => exact absurd hg (by simp)
  | cons i rest ih =>
    rcases (List.mem_cons).1 hg with he | hmem
    · subst he
      simp only [setupChunk, List.count_append,
        setupChunk_count_bAll_notMem fs rest g (List.nodup_cons.mp hnd).1]
      by_cases hc : (getFr fs g).completed = 0
      · simp [hc, List.count_cons, count_map_hook_phase]
      · simp [hc, (by simpa using hc : ¬((getFr fs g).completed == 0) = true),
          List.count_cons, count_map_hook_phase]
    · have hgi : g ≠ i :=
        fun he => (List.nodup_cons.mp hnd).1 (he ▸ hmem)
      simp only [setupChunk, List.count_append, ih (List.nodup_cons.mp hnd).2 hmem]
      split <;> simp [List.count_cons, count_map_hook_phase, hgi, Ne.symm hgi]

theorem teardownChunk_count_aAll_notMem {σ : Type} (fs : List (Frame σ)) (snap : List Nat)
    (g : Nat) (hg : g ∉ snap) :
    (teardownChunk fs snap).count (LEv.phase HPhase.aAll g) = 0 := by
  induction snap with
  | nil => rfl
  | cons i rest ih =>
    have hgi : g ≠ i := fun he => hg (he ▸ List.mem_cons_self i rest)
    simp only [teardownChunk, List.count_append,
      ih (fun hm => hg (List.mem_cons_of_mem i hm))]
    split <;> simp [List.count_cons, count_map_hook_phase, hgi, Ne.symm hgi]

theorem teardownChunk_count_aAll_mem {σ : Type} (fs : List (Frame σ)) (snap : List Nat)
    (g : Nat) (hnd : snap.Nodup) (hg : g ∈ snap) :
    (teardownChunk fs snap).count (LEv.phase HPhase.aAll g) =
      if fireAfterAll (getFr fs g) = true then 1 else 0 := by
  induction snap with
  | nil => exact absurd hg (by simp)
  | cons i rest ih =>
    rcases (List.mem_cons).1 hg with he | hmem
    · subst he
      simp only [teardownChunk, List.count_append,
        teardownChunk_count_aAll_notMem fs rest g (List.nodup_cons.mp hnd).1]
      by_cases hc : fireAfterAll (getFr fs g) = true
      · simp [hc, List.count_cons, count_map_hook_phase]
      · simp [hc, List.count_cons, count_map_hook_phase]
    · have hgi : g ≠ i :=
        fun he => (List.nodup_cons.mp hnd).1 (he ▸ hmem)
      simp only [teardownChunk, List.count_append, ih (List.nodup_cons.mp hnd).2 hmem]
      split <;> simp [List.count_cons, count_map_hook_phase, hgi, Ne.symm hgi]

theorem bookkeep_length {σ : Type} (o : Bool) (snap : List Nat) (fs : List (Frame σ)) :
    (bookkeep o snap fs).length = fs.length :=
  updEach_length _ snap fs

theorem bookkeep_waiting {σ : Type} (o : Bool) (snap : List Nat) (fs : List (Frame σ))
    (g : Nat) : (getFr (bookkeep o snap fs) g).waiting = (getFr fs g).waiting :=
  getFr_updEach_proj (fun f => f.waiting) (bumpFrame o) (fun _ => rfl) snap fs g

theorem bookkeep_only {σ : Type} (o : Bool) (snap : List Nat) (fs : List (Frame σ))
    (g : Nat) : (getFr (bookkeep o snap fs) g).only = (getFr fs g).only :=
  getFr_updEach_proj (fun f => f.only) (bumpFrame o) (fun _ => rfl) snap fs g

theorem bookkeep_hookLists {σ : Type} (o : Bool) (snap : List Nat) (fs : List (Frame σ))
    (g : Nat) :
    (getFr (bookkeep o snap fs) g).beforeAll = (getFr fs g).beforeAll ∧
    (getFr (bookkeep o snap fs) g).beforeEach = (getFr fs g).beforeEach ∧
    (getFr (bookkeep o snap fs) g).afterEach = (getFr fs g).afterEach ∧
    (getFr (bookkeep o snap fs) g).afterAll = (getFr fs g).afterAll := by
  have h := getFr_updEach_proj
    (fun f => (f.beforeAll, f.beforeEach, f.afterEach, f.afterAll))
    (bumpFrame o) (fun _ => rfl) snap fs g
  exact ⟨congrArg (fun q => q.1) h, congrArg (fun q => q.2.1) h,
    congrArg (fun q => q.2.2.1) h, congrArg (fun q => q.2.2.2) h⟩

theorem bookkeep_completed_mem {σ : Type} (o : Bool) (snap : List Nat)
    (fs : List (Frame σ)) (g : Nat) (hnd : snap.Nodup) (hm : g ∈ snap)
    (hlt : g < fs.length) :
    (getFr (bookkeep o snap fs) g).completed = (getFr fs g).completed + 1 := by
  unfold bookkeep
  rw [getFr_updEach_mem _ _ _ _ hnd hm hlt]
  rfl

theorem bookkeep_completed_notMem {σ : Type} (o : Bool) (snap : List Nat)
    (fs : List (Frame σ)) (g : Nat) (hm : g ∉ snap) :
    (getFr (bookkeep o snap fs) g).completed = (getFr fs g).completed := by
  unfold bookkeep
  rw [getFr_updEach_notMem _ _ _ _ hm]

theorem bookkeep_completedOnly_mem {σ : Type} (o : Bool) (snap : List Nat)
    (fs : List (Frame σ)) (g : Nat) (hnd : snap.Nodup) (hm : g ∈ snap)
    (hlt : g < fs.length) :
    (getFr (bookkeep o snap fs) g).completedOnly =
      (getFr fs g).completedOnly + (if o = true then 1 else 0) := by
  unfold bookkeep
  rw [getFr_updEach_mem _ _ _ _ hnd hm hlt]
  by_cases ho : o = true <;> simp [bumpFrame, ho]

theorem bookkeep_completedOnly_notMem {σ : Type} (o : Bool) (snap : List Nat)
    (fs : List (Frame σ)) (g : Nat) (hm : g ∉ snap) :
    (getFr (bookkeep o snap fs) g).completedOnly = (getFr fs g).completedOnly := by
  unfold bookkeep
  rw [getFr_updEach_notMem _ _ _ _ hm]

/-- A wrapped test either aborts during setup (frames untouched) or
reaches the bookkeeping, incrementing the counters of exactly its
snapshot frames. -/
theorem runWrapped_frames_cases {σ : Type} (t : Test σ) (st : ExecSt σ) :
    (runWrapped t st).1.frames = st.frames ∨
    (runWrapped t st).1.frames = bookkeep t.only t.snapshot st.frames := by
  unfold runWrapped
  cases he : (setupPhase t.snapshot st).2 with
  | some e =>
    simp only [he]
    exact Or.inl (setupPhase_frames t.snapshot st)
  | none =>
    simp only [he]
    refine Or.inr ?_
    cases htd : (teardownPhase t.snapshot.reverse _).2 with
    | some e =>
      simp only [htd]
      rw [teardownPhase_frames]
      show bookkeep t.only t.snapshot (setupPhase t.snapshot st).1.frames = _
      rw [setupPhase_frames]
    | none =>
      simp only [htd]
      rw [teardownPhase_frames]
      show bookkeep t.only t.snapshot (setupPhase t.snapshot st).1.frames = _
      rw [setupPhase_frames]

theorem runTest_exec {σ : Type} (t : Test σ) (r : RunSt σ) :
    (runTest t r).1.exec = if t.ignore = true then r.exec else (runWrapped t r.exec).1 := by
  unfold runTest
  by_cases hig : t.ignore = true
  · simp [hig]
  · simp only [hig, if_false, Bool.false_eq_true]
    split <;> rfl

theorem runTest_events {σ : Type} (t : Test σ) (r : RunSt σ) :
    (runTest t r).1.events = r.events ++ [Ev.testStart t.name, Ev.testEnd (runTest t r).2] := by
  unfold runTest
  by_cases hig : t.ignore = true
  · simp [hig]
  · simp only [hig, if_false, Bool.false_eq_true]
    split <;> simp

theorem runTest_results {σ : Type} (t : Test σ) (r : RunSt σ) :
    (runTest t r).1.results = r.results ++ [(runTest t r).2] := by
  unfold runTest
  by_cases hig : t.ignore = true
  · simp [hig]
  · simp only [hig, if_false, Bool.false_eq_true]
    split <;> simp

theorem runTest_name {σ : Type} (t : Test σ) (r : RunSt σ) :
    (runTest t r).2.name = t.name := by
  unfold runTest
  by_cases hig : t.ignore = true
  · simp [hig]
  · simp only [hig, if_false, Bool.false_eq_true]
    split <;> rfl

theorem runTest_statSum {σ : Type} (t : Test σ) (r : RunSt σ) :
    statSum (runTest t r).1.stats = statSum r.stats + 1 ∧
    (runTest t r).1.stats.filtered = r.stats.filtered := by
  unfold runTest
  by_cases hig : t.ignore = true
  · simp [hig, statSum]
    omega
  · simp only [hig, if_false, Bool.false_eq_true]
    split <;> (simp [statSum]; omega)

/-- With fail-fast off, the loop never breaks: it folds over the list. -/
theorem runTests_cons_false {σ : Type} (t : Test σ) (rest : List (Test σ)) (r : RunSt σ) :
    runTests false (t :: rest) r = runTests false rest (runTest t r).1 := by
  simp [runTests]

theorem runTests_append_false {σ : Type} (l₁ l₂ : List (Test σ)) (r : RunSt σ) :
    runTests false (l₁ ++ l₂) r = runTests false l₂ (runTests false l₁ r) := by
  induction l₁ generalizing r with
  | nil => rfl
  | cons t rest ih => rw [List.cons_append, runTests_cons_false, runTests_cons_false, ih]

/-- `driveTests` with no suite-level timer and fail-fast off is the plain
full iteration. -/
theorem driveTests_none_false {σ : Type} (ts : List (Test σ)) (r : RunSt σ) :
    driveTests none false ts r = (runTests false ts r, false) := by
  induction ts generalizing r with
  | nil => rfl
  | cons t rest ih =>
    simp only [driveTests, timedOutAt, runTests]
    rw [ih]
    simp

/-- C2: the spec's scenario — a test configured with a 10 ms timeout
whose body awaits 20 ms before resolving.  The recorded outcome is
`failed` with a timeout error, as the claim states, and the elapsed
wall-clock time really is 10 ms (the suite duration), but the recorded
per-test `duration` is `0`, not the elapsed ≈10 ms the claim requires:
in the runner's loop, `end` is only reassigned on the success path, so
on the failure path `duration = end - start = 0`. -/
theorem c2_timeout_records_zero_duration :
    c2outcome.result.results =
      [{ name := "subtests > timeout", duration := 0, status := Status.failed,
         error := some (Err.timeoutAfter 10) }] ∧
    c2outcome.result.duration = 10 ∧
    c2outcome.result.failed = 1 := by
  decide

/-- C1, counterexample: a suite whose test body counts its invocations.
Because `deferred()` copies the local `pending` flag by value into the
returned object, `_Suite.run`'s `if (!this.#cache.pending)` guard never
fires: a second `run` call with no intervening reset re-executes the
test (the world counter reaches 2) and returns a different aggregate
result (the first run passed, the second failed), contradicting the
claim that the second result is identical and that nothing re-executes. -/
theorem c1_counterexample :
    c1second.result ≠ c1first.result ∧
    c1first.result.failed = 0 ∧ c1second.result.failed = 1 ∧
    c1first.world = 1 ∧ c1second.world = 2 := by
  decide

/-- C5, counterexample: registering a single test with both `ignore` and
`only` set increments every stack frame's `only` counter but not its
`waiting` counter, so the claimed invariant `only ≤ waiting` fails
already at registration time: the root frame has `only = 1` and
`waiting = 0`. -/
theorem c5_counterexample :
    (getFr c5suite.frames 0).only = 1 ∧ (getFr c5suite.frames 0).waiting = 0 := by
  decide

/-- C4, counterexample: a group (frame index 1) with an `afterAll` hook
and two tests `a` and `b`, run with a filter that matches only `a`.  No
test is marked `only` and the filtering does not exclude all of the
group's tests (`a` runs and passes, `beforeAll` fires once), yet the
group's `afterAll` executes zero times, not exactly once: the excluded
test `b` contributed to `waiting` at registration, so
`waiting === completed` is never reached. -/
theorem c4_counterexample :
    (∀ t ∈ c4suite.registry, t.only = false) ∧
    c4outcome.result.passed = 1 ∧ c4outcome.result.filtered = 1 ∧
    c4outcome.log.count (LEv.phase HPhase.bAll 1) = 1 ∧
    c4outcome.log.count (LEv.phase HPhase.aAll 1) = 0 := by
  refine ⟨?_, by decide, by decide, by decide, by decide⟩
  intro t ht
  fin_cases ht <;> rfl

/-- C3, counterexample: a `beforeEach` hook that rejects, with an
`afterEach` hook registered on the same (root) frame.  The hook error
does propagate as the test's failure, but — contrary to the claim — the
teardown phase does not execute: the wrapped function rejects during
setup, before the teardown loop is reached, so neither the `afterEach`
join nor the hook with id 9 ever runs. -/
theorem c3_counterexample :
    c3outcome.result.failed = 1 ∧
    c3outcome.result.results.map (fun e => e.error) =
      [some (Err.assertionFailed "beforeEach boom")] ∧
    c3outcome.log.count (LEv.phase HPhase.aEach 0) = 0 ∧
    c3outcome.log.count (LEv.hook 9) = 0 := by
  decide

/-- C6, counterexample: the registered test is named `"s > xyz"` and the
skip is the string `"/x/"`.  Under the claim's reading the skip is the
regex `/x/`, which matches the name, so the test must not run; but
`createFilterFn` treats a skip string as a plain substring (`"/x/"` does
not occur in `"s > xyz"`), so the test is selected to run. -/
theorem c6_counterexample :
    createFilterFn substrCompile none (some (Pat.str "/x/")) c6test = true ∧
    (mkRunner [c6test]
      (createFilterFn substrCompile none (some (Pat.str "/x/"))) false).testsToRun = [c6test] ∧
    claimRunsTest substrCompile none (some (Pat.str "/x/")) c6test.name = false := by
  exact ⟨by decide, rfl, by decide⟩

/-- Each processed test bumps exactly one of `ignored`/`passed`/`failed`
and emits exactly one `testStart`, one `testEnd` and one outcome, so the
differences stay balanced through the loop, with or without fail-fast. -/
theorem runTests_bal {σ : Type} (ff : Bool) : ∀ (ts : List (Test σ)) (r : RunSt σ),
    statSum (runTests ff ts r).stats + r.events.countP isTestEndEv
      = statSum r.stats + (runTests ff ts r).events.countP isTestEndEv ∧
    statSum (runTests ff ts r).stats + r.events.countP isTestStartEv
      = statSum r.stats + (runTests ff ts r).events.countP isTestStartEv ∧
    statSum (runTests ff ts r).stats + r.results.length
      = statSum r.stats + (runTests ff ts r).results.length := by
  intro ts
  induction ts with
  | nil => intro r; exact ⟨rfl, rfl, rfl⟩
  | cons t rest ih =>
    intro r
    have hstat := (runTest_statSum t r).1
    have hev := runTest_events t r
    have hres := runTest_results t r
    have hevE : (runTest t r).1.events.countP isTestEndEv
        = r.events.countP isTestEndEv + 1 := by
      rw [hev]; simp [List.countP_append, List.countP_cons, isTestEndEv]
    have hevS : (runTest t r).1.events.countP isTestStartEv
        = r.events.countP isTestStartEv + 1 := by
      rw [hev]; simp [List.countP_append, List.countP_cons, isTestStartEv]
    have hresL : (runTest t r).1.results.length = r.results.length + 1 := by
      rw [hres]; simp
    simp only [runTests]
    by_cases hbr : (ff && (runTest t r).2.error.isSome) = true
    · rw [if_pos hbr]
      refine ⟨?_, ?_, ?_⟩ <;> omega
    · rw [if_neg hbr]
      obtain ⟨i1, i2, i3⟩ := ih (runTest t r).1
      refine ⟨?_, ?_, ?_⟩ <;> omega

/-- C8: for every runner drain, the aggregate counts satisfy
`passed + failed + ignored` = the number of `testEnd` events = the number
of `testStart` events = the number of recorded outcomes — each iterated
test (and only those; fail-fast stops the iteration) contributes to
exactly one of the three counters. -/
theorem c8_passed_failed_ignored_partition {σ : Type} (tests : List (Test σ))
    (f : Test σ → Bool) (ff : Bool) (ex : ExecSt σ) :
    (runnerRun tests f ff ex).stats.passed + (runnerRun tests f ff ex).stats.failed
        + (runnerRun tests f ff ex).stats.ignored
      = (runnerRun tests f ff ex).events.countP isTestEndEv ∧
    (runnerRun tests f ff ex).events.countP isTestEndEv
      = (runnerRun tests f ff ex).events.countP isTestStartEv ∧
    (runnerRun tests f ff ex).events.countP isTestEndEv
      = (runnerRun tests f ff ex).results.length := by
  obtain ⟨b1, b2, b3⟩ := runTests_bal (mkRunner tests f ff).failFast
    (mkRunner tests f ff).testsToRun (initRunSt (mkRunner tests f ff) ex)
  have h0s : statSum (initRunSt (mkRunner tests f ff) ex).stats = 0 := rfl
  have h0e : (initRunSt (mkRunner tests f ff) ex).events.countP isTestEndEv = 0 := rfl
  have h0st : (initRunSt (mkRunner tests f ff) ex).events.countP isTestStartEv = 0 := rfl
  have h0r : (initRunSt (mkRunner tests f ff) ex).results.length = 0 := rfl
  simp only [h0s, h0e, h0st, h0r] at b1 b2 b3
  simp only [runnerRun]
  simp [List.countP_append, List.countP_cons, List.countP_nil, isTestEndEv,
    isTestStartEv]
  simp only [statSum] at b1 b2 b3
  refine ⟨by omega, by omega, by omega⟩

/-- C7: when at least one registered test is marked `only`, the runner is
focused: `usedOnly` is reported `true` (also on the final `end` event),
the tests to run are exactly the `only` subset further restricted by the
filter predicate, and `filtered` counts only eligible (`only`) tests that
failed the predicate — the non-`only` tests are excluded entirely without
being counted. -/
theorem c7_only_focus {σ : Type} (tests : List (Test σ)) (f : Test σ → Bool)
    (ff : Bool) (ex : ExecSt σ) (h : ∃ t ∈ tests, t.only = true) :
    (mkRunner tests f ff).usedOnly = true ∧
    (mkRunner tests f ff).testsToRun = (tests.filter (fun t => t.only)).filter f ∧
    (mkRunner tests f ff).filtered
      = (tests.filter (fun t => t.only)).length - ((tests.filter (fun t => t.only)).filter f).length ∧
    (∃ m, (runnerRun tests f ff ex).events.getLast? = some (Ev.endEv m) ∧
      m.usedOnly = true) := by
  obtain ⟨t, ht, honly⟩ := h
  have hmem : t ∈ tests.filter (fun t => t.only) :=
    List.mem_filter.mpr ⟨ht, honly⟩
  have hne : tests.filter (fun t => t.only) ≠ [] := List.ne_nil_of_mem hmem
  have hempty : (tests.filter (fun t => t.only)).isEmpty = false :=
    List.isEmpty_eq_false.mpr hne
  have hused : (mkRunner tests f ff).usedOnly = true := by
    simp [mkRunner, hempty]
  refine ⟨hused, ?_, ?_, ?_⟩
  · simp [mkRunner, hempty]
  · simp [mkRunner, hempty]
  · refine ⟨endPayload (mkRunner tests f ff).usedOnly
      (runTests (mkRunner tests f ff).failFast (mkRunner tests f ff).testsToRun
        (initRunSt (mkRunner tests f ff) ex)), ?_, ?_⟩
    · simp only [runnerRun]
      exact List.getLast?_concat _
    · rw [show (endPayload (mkRunner tests f ff).usedOnly
        (runTests (mkRunner tests f ff).failFast (mkRunner tests f ff).testsToRun
          (initRunSt (mkRunner tests f ff) ex))).usedOnly
        = (mkRunner tests f ff).usedOnly from rfl, hused]

/-- Witness for C7 at a concrete input: a single `only` test. -/
theorem c7_only_focus_witness :
    (mkRunner [mkT Unit "o" true false] (fun _ => true) false).usedOnly = true ∧
    (mkRunner [mkT Unit "o" true false] (fun _ => true) false).testsToRun
      = (([mkT Unit "o" true false].filter (fun t => t.only)).filter (fun _ => true)) ∧
    (mkRunner [mkT Unit "o" true false] (fun _ => true) false).filtered
      = ([mkT Unit "o" true false].filter (fun t => t.only)).length
        - (([mkT Unit "o" true false].filter (fun t => t.only)).filter (fun _ => true)).length ∧
    (∃ m, (runnerRun [mkT Unit "o" true false] (fun _ => true) false exU).events.getLast?
        = some (Ev.endEv m) ∧ m.usedOnly = true) :=
  c7_only_focus [mkT Unit "o" true false] (fun _ => true) false exU
    ⟨mkT Unit "o" true false, List.mem_cons_self _ _, rfl⟩

/-- C9: with fail-fast enabled and tests registered in order `[A, B, C]`
where `A`'s outcome carries no error and `B`'s outcome carries one, the
emitted stream contains exactly one `testStart` and one `testEnd` for
each of `A` and `B`, none at all for `C` (it is never started), and still
exactly one terminal `end` event. -/
theorem c9_fail_fast_stops_iteration {σ : Type} (A B C : Test σ) (ex : ExecSt σ)
    (hAB : A.name ≠ B.name) (hAC : A.name ≠ C.name) (hBC : B.name ≠ C.name)
    (hoA : A.only = false) (hoB : B.only = false) (hoC : C.only = false)
    (h1 : (runTest A (initRunSt (mkRunner [A, B, C] (fun _ => true) true) ex)).2.error = none)
    (h2 : (runTest B
      (runTest A (initRunSt (mkRunner [A, B, C] (fun _ => true) true) ex)).1).2.error.isSome
        = true) :
    (runnerRun [A, B, C] (fun _ => true) true ex).events.countP (isTestStartFor A.name) = 1 ∧
    (runnerRun [A, B, C] (fun _ => true) true ex).events.countP (isTestEndFor A.name) = 1 ∧
    (runnerRun [A, B, C] (fun _ => true) true ex).events.countP (isTestStartFor B.name) = 1 ∧
    (runnerRun [A, B, C] (fun _ => true) true ex).events.countP (isTestEndFor B.name) = 1 ∧
    (runnerRun [A, B, C] (fun _ => true) true ex).events.countP (isTestStartFor C.name) = 0 ∧
    (runnerRun [A, B, C] (fun _ => true) true ex).events.countP (isTestEndFor C.name) = 0 ∧
    (runnerRun [A, B, C] (fun _ => true) true ex).events.countP isEndEv = 1 := by
  have hrun : (mkRunner [A, B, C] (fun _ => true) true).testsToRun = [A, B, C] := by
    simp [mkRunner, List.filter, hoA, hoB, hoC]
  have hff : (mkRunner [A, B, C] (fun _ => true) true).failFast = true := rfl
  have hloop : runTests (mkRunner [A, B, C] (fun _ => true) true).failFast
      (mkRunner [A, B, C] (fun _ => true) true).testsToRun
      (initRunSt (mkRunner [A, B, C] (fun _ => true) true) ex)
      = (runTest B
          (runTest A (initRunSt (mkRunner [A, B, C] (fun _ => true) true) ex)).1).1 := by
    rw [hrun, hff]
    have s1 : runTests true [A, B, C]
        (initRunSt (mkRunner [A, B, C] (fun _ => true) true) ex)
        = runTests true [B, C]
            (runTest A (initRunSt (mkRunner [A, B, C] (fun _ => true) true) ex)).1 := by
      show (if (true && (runTest A
            (initRunSt (mkRunner [A, B, C] (fun _ => true) true) ex)).2.error.isSome) = true
          then (runTest A (initRunSt (mkRunner [A, B, C] (fun _ => true) true) ex)).1
          else runTests true [B, C]
            (runTest A (initRunSt (mkRunner [A, B, C] (fun _ => true) true) ex)).1)
        = runTests true [B, C]
            (runTest A (initRunSt (mkRunner [A, B, C] (fun _ => true) true) ex)).1
      rw [h1]
      rfl
    have s2 : runTests true [B, C]
        (runTest A (initRunSt (mkRunner [A, B, C] (fun _ => true) true) ex)).1
        = (runTest B
            (runTest A (initRunSt (mkRunner [A, B, C] (fun _ => true) true) ex)).1).1 := by
      show (if (true && (runTest B (runTest A
            (initRunSt (mkRunner [A, B, C] (fun _ => true) true) ex)).1).2.error.isSome) = true
          then (runTest B (runTest A
            (initRunSt (mkRunner [A, B, C] (fun _ => true) true) ex)).1).1
          else runTests true [C] (runTest B (runTest A
            (initRunSt (mkRunner [A, B, C] (fun _ => true) true) ex)).1).1)
        = (runTest B (runTest A
            (initRunSt (mkRunner [A, B, C] (fun _ => true) true) ex)).1).1
      rw [h2]
      rfl
    rw [s1, s2]
  have hevB := runTest_events B (runTest A (initRunSt (mkRunner [A, B, C] (fun _ => true) true) ex)).1
  have hevA := runTest_events A (initRunSt (mkRunner [A, B, C] (fun _ => true) true) ex)
  have hnmA := runTest_name A (initRunSt (mkRunner [A, B, C] (fun _ => true) true) ex)
  have hnmB := runTest_name B (runTest A (initRunSt (mkRunner [A, B, C] (fun _ => true) true) ex)).1
  have hev0 : (initRunSt (mkRunner [A, B, C] (fun _ => true) true) ex).events
      = [Ev.start ((mkRunner [A, B, C] (fun _ => true) true).testsToRun.map (fun t => t.name))] := rfl
  simp only [runnerRun, hloop, hevB, hevA, hev0]
  simp [List.countP_append, List.countP_cons, isTestStartFor, isTestEndFor, isEndEv,
    hnmA, hnmB, hAB, hAC, hBC, Ne.symm hAB, Ne.symm hAC, Ne.symm hBC]

/-- Witness for C9 at a concrete input: `A` passes, `B` rejects, `C`
would pass but is never reached. -/
theorem c9_fail_fast_stops_iteration_witness :
    (runnerRun [mkT Unit "A" false false, mkTFail Unit "B", mkT Unit "C" false false]
      (fun _ => true) true exU).events.countP (isTestStartFor (mkT Unit "A" false false).name) = 1 ∧
    (runnerRun [mkT Unit "A" false false, mkTFail Unit "B", mkT Unit "C" false false]
      (fun _ => true) true exU).events.countP (isTestEndFor (mkT Unit "A" false false).name) = 1 ∧
    (runnerRun [mkT Unit "A" false false, mkTFail Unit "B", mkT Unit "C" false false]
      (fun _ => true) true exU).events.countP (isTestStartFor (mkTFail Unit "B").name) = 1 ∧
    (runnerRun [mkT Unit "A" false false, mkTFail Unit "B", mkT Unit "C" false false]
      (fun _ => true) true exU).events.countP (isTestEndFor (mkTFail Unit "B").name) = 1 ∧
    (runnerRun [mkT Unit "A" false false, mkTFail Unit "B", mkT Unit "C" false false]
      (fun _ => true) true exU).events.countP (isTestStartFor (mkT Unit "C" false false).name) = 0 ∧
    (runnerRun [mkT Unit "A" false false, mkTFail Unit "B", mkT Unit "C" false false]
      (fun _ => true) true exU).events.countP (isTestEndFor (mkT Unit "C" false false).name) = 0 ∧
    (runnerRun [mkT Unit "A" false false, mkTFail Unit "B", mkT Unit "C" false false]
      (fun _ => true) true exU).events.countP isEndEv = 1 :=
  c9_fail_fast_stops_iteration (mkT Unit "A" false false) (mkTFail Unit "B")
    (mkT Unit "C" false false) exU (by decide) (by decide) (by decide)
    rfl rfl rfl (by decide) (by decide)

/-- C6, amended: an eligible test is selected to run iff (no filter, or
the filter matches the qualified name by regex, `"/pattern/"`-as-regex,
or substring) and (no skip, or the skip does not match — by regex when it
is a `RegExp`, by plain substring when it is a string: the `"/pattern/"`
regex form does not apply to skip), where an empty-string pattern counts
as unset.  Stated as: the code's predicate coincides with the amended
predicate, and membership in `testsToRun` is eligibility plus that
predicate. -/
theorem c6_amended_skip_is_substring {σ : Type} (compile : String → String → Bool)
    (fl sk : Option Pat) (tests : List (Test σ)) (ff : Bool) (t : Test σ) :
    createFilterFn compile fl sk t = amendedRunsTest compile fl sk t.name ∧
    (t ∈ (mkRunner tests (createFilterFn compile fl sk) ff).testsToRun ↔
      (t ∈ (if (tests.filter (fun x => x.only)).isEmpty then tests
            else tests.filter (fun x => x.only)) ∧
       amendedRunsTest compile fl sk t.name = true)) := by
  have key : ∀ (d : Test σ),
      createFilterFn compile fl sk d = amendedRunsTest compile fl sk d.name := by
    intro d
    unfold createFilterFn amendedRunsTest matchesByFilterRules
    cases fl with
    | none =>
      cases sk with
      | none => rfl
      | some q =>
        cases q with
        | regex r2 => simp
        | str s2 => by_cases h2 : (s2 == "") = true <;> simp [h2]
    | some p =>
      cases p with
      | regex r1 =>
        cases sk with
        | none => simp
        | some q =>
          cases q with
          | regex r2 => simp
          | str s2 => by_cases h2 : (s2 == "") = true <;> simp [h2]
      | str s1 =>
        by_cases h1 : (s1 == "") = true
        · cases sk with
          | none => simp [h1]
          | some q =>
            cases q with
            | regex r2 => simp [h1]
            | str s2 => by_cases h2 : (s2 == "") = true <;> simp [h1, h2]
        · cases sk with
          | none => simp [h1]
          | some q =>
            cases q with
            | regex r2 => simp [h1]
            | str s2 => by_cases h2 : (s2 == "") = true <;> simp [h1, h2]
  refine ⟨key t, ?_⟩
  by_cases hE : (tests.filter (fun x => x.only)).isEmpty = true
  · simp only [mkRunner, hE, Bool.not_true, if_pos rfl, Bool.false_eq_true, if_false,
      List.mem_filter, key t]
    simp [hE]
  · simp only [mkRunner, List.mem_filter, key t]
    simp [hE, eq_false_of_ne_true hE]

theorem countP_map_hook_teardown {σ : Type} (hs : List (Hook σ)) :
    (hs.map (fun h => LEv.hook h.id)).countP isTeardownEv = 0 := by
  rw [List.countP_eq_zero]
  intro a ha
  obtain ⟨h, _, rfl⟩ := List.mem_map.1 ha
  simp [isTeardownEv]

/-- The setup phase never emits teardown log entries, whether or not a
hook rejects. -/
theorem setupPhase_no_teardown {σ : Type} : ∀ (snap : List Nat) (st : ExecSt σ),
    ((setupPhase snap st).1.log).countP isTeardownEv = st.log.countP isTeardownEv := by
  intro snap
  induction snap with
  | nil => intro st; rfl
  | cons g rest ih =>
    intro st
    have hb : ∀ (st' : ExecSt σ) (p : HPhase) (hp : isTeardownEv (LEv.phase p g) = false)
        (hs : List (Hook σ)),
        ((callAll hs { st' with log := st'.log ++ [LEv.phase p g] }).1.log).countP isTeardownEv
          = st'.log.countP isTeardownEv := by
      intro st' p hp hs
      rw [callAll_log, List.countP_append, List.countP_append, countP_map_hook_teardown]
      simp [List.countP_cons, hp]
    simp only [setupPhase]
    split
    · by_cases hc : ((getFr st.frames g).completed == 0) = true
      · rw [if_pos hc]
        exact hb st HPhase.bAll (by simp [isTeardownEv]) _
      · rw [if_neg hc]
    · split
      · by_cases hc : ((getFr st.frames g).completed == 0) = true
        · rw [if_pos hc]
          rw [hb _ HPhase.bEach (by simp [isTeardownEv]) _]
          exact hb st HPhase.bAll (by simp [isTeardownEv]) _
        · rw [if_neg hc]
          exact hb st HPhase.bEach (by simp [isTeardownEv]) _
      · rw [ih]
        by_cases hc : ((getFr st.frames g).completed == 0) = true
        · rw [if_pos hc]
          rw [hb _ HPhase.bEach (by simp [isTeardownEv]) _]
          exact hb st HPhase.bAll (by simp [isTeardownEv]) _
        · rw [if_neg hc]
          exact hb st HPhase.bEach (by simp [isTeardownEv]) _

/-- C3, amended: when a setup hook (`beforeAll` or `beforeEach`) rejects
during a test's setup phase, the error is not caught by the composer: it
propagates out of the wrapped function and is recorded as that test's
failure (status `failed`, the hook's error attached, duration `0`).  The
teardown phase does NOT run in that case: the frames are left untouched
(no completion bookkeeping) and no `afterEach`/`afterAll` join is ever
invoked.  Teardown is unconditional only with respect to the test body's
own outcome. -/
theorem c3_setup_error_propagates_no_teardown {σ : Type} (t : Test σ) (r : RunSt σ)
    (e : Err) (hset : (setupPhase t.snapshot r.exec).2 = some e)
    (hig : t.ignore = false) (htime : t.time ≤ t.timeoutMs) :
    (runTest t r).2 = { name := t.name, duration := 0, status := Status.failed,
                        error := some e } ∧
    (runTest t r).1.exec.frames = r.exec.frames ∧
    ((runTest t r).1.exec.log).countP isTeardownEv = (r.exec.log).countP isTeardownEv := by
  have hw : runWrapped t r.exec = ((setupPhase t.snapshot r.exec).1, some e) := by
    simp only [runWrapped]
    rw [hset]
  have hfr := setupPhase_frames t.snapshot r.exec
  have hnt := setupPhase_no_teardown t.snapshot r.exec
  have herr : (if t.timeoutMs < t.time then some (Err.timeoutAfter t.timeoutMs)
      else (runWrapped t r.exec).2) = some e := by
    rw [if_neg (Nat.not_lt.mpr htime), hw]
  unfold runTest
  rw [if_neg (by rw [hig]; exact Bool.false_ne_true)]
  simp only [show ({ r with events := r.events ++ [Ev.testStart t.name] } : RunSt σ).exec
      = r.exec from rfl]
  simp only [herr]
  refine ⟨trivial, by rw [hw]; exact hfr, by rw [hw]; exact hnt⟩

/-- Witness for C3's amended theorem at a concrete input: the suite of
`c3suite` has a rejecting `beforeEach` on the root frame. -/
theorem c3_setup_error_propagates_no_teardown_witness :
    (runTest (c3suite.registry.getD 0 (mkT Unit "x" false false))
        (initRunSt (mkRunner c3suite.registry (fun _ => true) false)
          { frames := c3suite.frames, world := (), log := [] })).2
      = { name := "s > t", duration := 0, status := Status.failed,
          error := some (Err.assertionFailed "beforeEach boom") } ∧
    (runTest (c3suite.registry.getD 0 (mkT Unit "x" false false))
        (initRunSt (mkRunner c3suite.registry (fun _ => true) false)
          { frames := c3suite.frames, world := (), log := [] })).1.exec.frames
      = (initRunSt (mkRunner c3suite.registry (fun _ => true) false)
          { frames := c3suite.frames, world := (), log := [] }).exec.frames ∧
    ((runTest (c3suite.registry.getD 0 (mkT Unit "x" false false))
        (initRunSt (mkRunner c3suite.registry (fun _ => true) false)
          { frames := c3suite.frames, world := (), log := [] })).1.exec.log).countP isTeardownEv
      = ((initRunSt (mkRunner c3suite.registry (fun _ => true) false)
          { frames := c3suite.frames, world := (), log := [] }).exec.log).countP isTeardownEv := by
  have h := c3_setup_error_propagates_no_teardown
    (c3suite.registry.getD 0 (mkT Unit "x" false false))
    (initRunSt (mkRunner c3suite.registry (fun _ => true) false)
      { frames := c3suite.frames, world := (), log := [] })
    (Err.assertionFailed "beforeEach boom") (by decide) (by decide) (by decide)
  exact ⟨by rw [h.1]; rfl, h.2.1, h.2.2⟩

theorem contains_iff (l : List Nat) (a : Nat) : l.contains a = true ↔ a ∈ l := by
  simp

theorem contains_false (l : List Nat) (a : Nat) (h : a ∉ l) : l.contains a = false := by
  simp [h]

theorem getFr_append_lt {σ : Type} (fs l : List (Frame σ)) (g : Nat)
    (h : g < fs.length) : getFr (fs ++ l) g = getFr fs g := by
  unfold getFr
  rw [List.getD_eq_getElem?_getD, List.getD_eq_getElem?_getD, List.getElem?_append,
    if_pos h]

theorem getFr_concat_self {σ : Type} (fs : List (Frame σ)) (f : Frame σ) :
    getFr (fs ++ [f]) fs.length = f := by
  unfold getFr
  rw [List.getD_eq_getElem?_getD, List.getElem?_concat_length]
  rfl

theorem getFr_concat_gt {σ : Type} (fs : List (Frame σ)) (f : Frame σ) (g : Nat)
    (h : fs.length < g) : getFr (fs ++ [f]) g = default := by
  apply getFr_out
  rw [List.length_append]
  simpa using h

theorem getFr_updFr_proj {σ : Type} {α : Type} (P : Frame σ → α)
    (h : Frame σ → Frame σ) (hP : ∀ f, P (h f) = P f) (fs : List (Frame σ))
    (i g : Nat) : P (getFr (updFr fs i h) g) = P (getFr fs g) := by
  by_cases hlt : i < fs.length
  · by_cases he : i = g
    · subst he; rw [getFr_updFr_same _ _ _ hlt, hP]
    · rw [getFr_updFr_ne _ _ _ _ he]
  · rw [updFr_out _ _ _ (Nat.le_of_not_lt hlt)]

/-- `waiting` after registering a non-ignored test: incremented exactly
on the stack frames. -/
theorem updEach_bumpWaiting {σ : Type} (idxs : List Nat) (fs : List (Frame σ))
    (hnd : idxs.Nodup) (hlt : ∀ i ∈ idxs, i < fs.length) (g : Nat) :
    (getFr (updEach bumpWaiting idxs fs) g).waiting
      = (getFr fs g).waiting + (if g ∈ idxs then 1 else 0) := by
  by_cases hm : g ∈ idxs
  · rw [getFr_updEach_mem _ _ _ _ hnd hm (hlt g hm), if_pos hm]
    rfl
  · rw [getFr_updEach_notMem _ _ _ _ hm, if_neg hm]
    omega

theorem updEach_bumpOnly {σ : Type} (idxs : List Nat) (fs : List (Frame σ))
    (hnd : idxs.Nodup) (hlt : ∀ i ∈ idxs, i < fs.length) (g : Nat) :
    (getFr (updEach bumpOnly idxs fs) g).only
      = (getFr fs g).only + (if g ∈ idxs then 1 else 0) := by
  by_cases hm : g ∈ idxs
  · rw [getFr_updEach_mem _ _ _ _ hnd hm (hlt g hm), if_pos hm]
    rfl
  · rw [getFr_updEach_notMem _ _ _ _ hm, if_neg hm]
    omega

theorem regInv_init (σ : Type) (nm : String) (opts : RunOpts) :
    RegInv (initSuite σ nm opts) := by
  refine ⟨by simp [initSuite], by simp [initSuite], ?_, ?_, ?_, ?_, ?_, ?_, ?_⟩
  · intro g hg
    simp [initSuite] at hg
    simp [initSuite, hg]
  · intro t ht; simp [initSuite] at ht
  · intro t ht; simp [initSuite] at ht
  · intro g
    show (getFr [newContext σ nm] g).waiting = List.countP _ []
    cases g with
    | zero => rfl
    | succ n => rfl
  · intro g
    show (getFr [newContext σ nm] g).only = List.countP _ []
    cases g with
    | zero => rfl
    | succ n => rfl
  · intro g
    show (getFr [newContext σ nm] g).completed = 0
    cases g with
    | zero => rfl
    | succ n => rfl
  · intro g
    show (getFr [newContext σ nm] g).completedOnly = 0
    cases g with
    | zero => rfl
    | succ n => rfl

theorem regTest_registry {σ : Type} (ti : TestInput σ) (st : SuiteSt σ) :
    (regTest ti st).registry = st.registry ++
      [{ name := qualify st ti.name, body := ti.body, time := ti.time,
         ignore := ti.ignore, only := ti.only, timeoutMs := ti.timeoutMs,
         snapshot := st.stack }] := rfl

theorem regTest_frames_length {σ : Type} (ti : TestInput σ) (st : SuiteSt σ) :
    (regTest ti st).frames.length = st.frames.length := by
  show (if ti.only then updEach bumpOnly st.stack
      (if ti.ignore then st.frames else updEach bumpWaiting st.stack st.frames)
    else (if ti.ignore then st.frames
      else updEach bumpWaiting st.stack st.frames)).length = _
  by_cases ho : ti.only = true <;> by_cases hig : ti.ignore = true <;>
    simp [ho, hig, updEach_length]

theorem regTest_frames_proj {σ : Type} {α : Type} (P : Frame σ → α)
    (hPw : ∀ f, P (bumpWaiting f) = P f) (hPo : ∀ f, P (bumpOnly f) = P f)
    (ti : TestInput σ) (st : SuiteSt σ) (g : Nat) :
    P (getFr (regTest ti st).frames g) = P (getFr st.frames g) := by
  show P (getFr (if ti.only then updEach bumpOnly st.stack
      (if ti.ignore then st.frames else updEach bumpWaiting st.stack st.frames)
    else (if ti.ignore then st.frames
      else updEach bumpWaiting st.stack st.frames)) g) = _
  by_cases ho : ti.only = true <;> by_cases hig : ti.ignore = true <;>
    simp [ho, hig, getFr_updEach_proj P bumpOnly hPo, getFr_updEach_proj P bumpWaiting hPw]

theorem regTest_waiting {σ : Type} (ti : TestInput σ) (st : SuiteSt σ)
    (hnd : st.stack.Nodup) (hlt : ∀ i ∈ st.stack, i < st.frames.length) (g : Nat) :
    (getFr (regTest ti st).frames g).waiting
      = (getFr st.frames g).waiting + (if ti.ignore = false ∧ g ∈ st.stack then 1 else 0) := by
  have h2 : (getFr (regTest ti st).frames g).waiting
      = (getFr (if ti.ignore then st.frames
          else updEach bumpWaiting st.stack st.frames) g).waiting := by
    show (getFr (if ti.only then updEach bumpOnly st.stack _ else _) g).waiting = _
    by_cases ho : ti.only = true
    · rw [if_pos ho]
      exact getFr_updEach_proj (fun f => f.waiting) bumpOnly (fun _ => rfl) _ _ g
    · rw [if_neg ho]
  rw [h2]
  by_cases hig : ti.ignore = true
  · rw [if_pos hig, if_neg (by simp [hig])]
    omega
  · rw [if_neg hig, updEach_bumpWaiting st.stack st.frames hnd hlt g]
    congr 1
    by_cases hm : g ∈ st.stack
    · rw [if_pos hm, if_pos ⟨eq_false_of_ne_true hig, hm⟩]
    · rw [if_neg hm, if_neg (fun hc => hm hc.2)]

theorem regTest_only {σ : Type} (ti : TestInput σ) (st : SuiteSt σ)
    (hnd : st.stack.Nodup) (hlt : ∀ i ∈ st.stack, i < st.frames.length) (g : Nat) :
    (getFr (regTest ti st).frames g).only
      = (getFr st.frames g).only + (if ti.only = true ∧ g ∈ st.stack then 1 else 0) := by
  have hlt1 : ∀ i ∈ st.stack,
      i < (if ti.ignore then st.frames else updEach bumpWaiting st.stack st.frames).length := by
    intro i hi
    by_cases hig : ti.ignore = true <;> simp [hig, updEach_length, hlt i hi]
  have h1 : (getFr (if ti.ignore then st.frames
      else updEach bumpWaiting st.stack st.frames) g).only = (getFr st.frames g).only := by
    by_cases hig : ti.ignore = true
    · rw [if_pos hig]
    · rw [if_neg hig]
      exact getFr_updEach_proj (fun f => f.only) bumpWaiting (fun _ => rfl) _ _ g
  show (getFr (if ti.only then updEach bumpOnly st.stack
      (if ti.ignore then st.frames else updEach bumpWaiting st.stack st.frames)
    else (if ti.ignore then st.frames
      else updEach bumpWaiting st.stack st.frames)) g).only = _
  by_cases ho : ti.only = true
  · rw [if_pos ho, updEach_bumpOnly st.stack _ hnd hlt1 g, h1]
    congr 1
    by_cases hm : g ∈ st.stack
    · rw [if_pos hm, if_pos ⟨ho, hm⟩]
    · rw [if_neg hm, if_neg (fun hc => hm hc.2)]
  · rw [if_neg ho, h1, if_neg (fun hc => ho hc.1)]
    omega

theorem regInv_applyOp {σ : Type} (st : SuiteSt σ) (op : Op σ) (inv : RegInv st) :
    RegInv (applyOp st op) := by
  obtain ⟨ne, nd, slt, tnd, tlt, weq, oeq, cz, coz⟩ := inv
  cases op with
  | hookAdd ph h =>
    show RegInv (addHook ph h st)
    unfold addHook
    cases hgl : st.stack.getLast? with
    | none => exact ⟨ne, nd, slt, tnd, tlt, weq, oeq, cz, coz⟩
    | some gT =>
      have proj : ∀ (P : Frame σ → Nat) (hP : ∀ f, P (pushHook ph h f) = P f) g,
          P (getFr (updFr st.frames gT (pushHook ph h)) g) = P (getFr st.frames g) := by
        intro P hP g
        exact getFr_updFr_proj P _ hP st.frames gT g
      have hwp : ∀ f, (pushHook ph h f).waiting = f.waiting := by
        intro f; cases ph <;> rfl
      have hop : ∀ f, (pushHook ph h f).only = f.only := by
        intro f; cases ph <;> rfl
      have hcp : ∀ f, (pushHook ph h f).completed = f.completed := by
        intro f; cases ph <;> rfl
      have hcop : ∀ f, (pushHook ph h f).completedOnly = f.completedOnly := by
        intro f; cases ph <;> rfl
      refine ⟨ne, nd, ?_, tnd, ?_, ?_, ?_, ?_, ?_⟩
      · intro g hg
        show g < (updFr st.frames gT (pushHook ph h)).length
        rw [updFr_length]; exact slt g hg
      · intro t ht g hg
        show g < (updFr st.frames gT (pushHook ph h)).length
        rw [updFr_length]; exact tlt t ht g hg
      · intro g; rw [proj (fun f => f.waiting) hwp g]; exact weq g
      · intro g; rw [proj (fun f => f.only) hop g]; exact oeq g
      · intro g; rw [proj (fun f => f.completed) hcp g]; exact cz g
      · intro g; rw [proj (fun f => f.completedOnly) hcop g]; exact coz g
  | openGroup n =>
    have hlen : (st.frames ++ [newContext σ n]).length = st.frames.length + 1 := by
      simp
    have hnewmem : st.frames.length ∉ st.stack :=
      fun hm => Nat.lt_irrefl _ (slt _ hm)
    have hcnt0 : ∀ g, st.frames.length ≤ g →
        st.registry.countP (touches g) = 0 ∧ st.registry.countP (touchesOnly g) = 0 := by
      intro g hg
      constructor <;>
        (rw [List.countP_eq_zero]
         intro t ht
         have : g ∉ t.snapshot := fun hm => Nat.lt_irrefl g (Nat.lt_of_lt_of_le (tlt t ht g hm) hg)
         simp [touches, touchesOnly, this])
    refine ⟨by simp [applyOp], ?_, ?_, tnd, ?_, ?_, ?_, ?_, ?_⟩
    · show (st.stack ++ [st.frames.length]).Nodup
      rw [List.nodup_append]
      exact ⟨nd, List.nodup_singleton _, by
        intro a ha hb
        rw [List.mem_singleton] at hb
        exact hnewmem (hb ▸ ha)⟩
    · intro g hg
      show g < (st.frames ++ [newContext σ n]).length
      rw [hlen]
      rcases List.mem_append.1 hg with h1 | h1
      · exact Nat.lt_succ_of_lt (slt g h1)
      · rw [List.mem_singleton] at h1; rw [h1]; exact Nat.lt_succ_self _
    · intro t ht g hg
      show g < (st.frames ++ [newContext σ n]).length
      rw [hlen]
      exact Nat.lt_succ_of_lt (tlt t ht g hg)
    · intro g
      show (getFr (st.frames ++ [newContext σ n]) g).waiting = _
      rcases Nat.lt_trichotomy g st.frames.length with hlt | heq | hgt
      · rw [getFr_append_lt _ _ _ hlt]; exact weq g
      · rw [heq, getFr_concat_self]
        exact ((hcnt0 _ (Nat.le_refl _)).1).symm
      · rw [getFr_concat_gt _ _ _ hgt]
        exact ((hcnt0 _ (Nat.le_of_lt hgt)).1).symm
    · intro g
      show (getFr (st.frames ++ [newContext σ n]) g).only = _
      rcases Nat.lt_trichotomy g st.frames.length with hlt | heq | hgt
      · rw [getFr_append_lt _ _ _ hlt]; exact oeq g
      · rw [heq, getFr_concat_self]
        exact ((hcnt0 _ (Nat.le_refl _)).2).symm
      · rw [getFr_concat_gt _ _ _ hgt]
        exact ((hcnt0 _ (Nat.le_of_lt hgt)).2).symm
    · intro g
      show (getFr (st.frames ++ [newContext σ n]) g).completed = 0
      rcases Nat.lt_trichotomy g st.frames.length with hlt | heq | hgt
      · rw [getFr_append_lt _ _ _ hlt]; exact cz g
      · rw [heq, getFr_concat_self]; rfl
      · rw [getFr_concat_gt _ _ _ hgt]; rfl
    · intro g
      show (getFr (st.frames ++ [newContext σ n]) g).completedOnly = 0
      rcases Nat.lt_trichotomy g st.frames.length with hlt | heq | hgt
      · rw [getFr_append_lt _ _ _ hlt]; exact coz g
      · rw [heq, getFr_concat_self]; rfl
      · rw [getFr_concat_gt _ _ _ hgt]; rfl
  | closeGroup =>
    show RegInv (if st.stack.length ≤ 1 then st else _)
    by_cases hlen : st.stack.length ≤ 1
    · rw [if_pos hlen]; exact ⟨ne, nd, slt, tnd, tlt, weq, oeq, cz, coz⟩
    · rw [if_neg hlen]
      refine ⟨?_, List.Nodup.sublist (List.dropLast_sublist _) nd, ?_, tnd, tlt, weq, oeq, cz, coz⟩
      · show st.stack.dropLast ≠ []
        rw [← List.length_pos, List.length_dropLast]
        omega
      · intro g hg
        exact slt g (List.Sublist.mem hg (List.dropLast_sublist _))
  | test ti =>
    refine ⟨ne, nd, ?_, ?_, ?_, ?_, ?_, ?_, ?_⟩
    · intro g hg
      show g < (regTest ti st).frames.length
      rw [regTest_frames_length]
      exact slt g hg
    · intro t ht
      rcases List.mem_append.1 (by
          have ht2 : t ∈ (regTest ti st).registry := ht
          rw [regTest_registry] at ht2
          exact ht2) with h1 | h1
      · exact tnd t h1
      · rw [List.mem_singleton] at h1
        rw [h1]
        exact nd
    · intro t ht g hg
      show g < (regTest ti st).frames.length
      rw [regTest_frames_length]
      rcases List.mem_append.1 (by
          have ht2 : t ∈ (regTest ti st).registry := ht
          rw [regTest_registry] at ht2
          exact ht2) with h1 | h1
      · exact tlt t h1 g hg
      · rw [List.mem_singleton] at h1
        subst h1
        exact slt g hg
    · intro g
      show (getFr (regTest ti st).frames g).waiting = ((regTest ti st).registry).countP (touches g)
      rw [regTest_waiting ti st nd slt g, regTest_registry, List.countP_append, weq g]
      simp only [List.countP_cons, List.countP_nil, Nat.zero_add]
      congr 1
      show (if ti.ignore = false ∧ g ∈ st.stack then 1 else 0)
        = if (!ti.ignore && st.stack.contains g) = true then 1 else 0
      by_cases hig : ti.ignore = true
      · rw [if_neg (by simp [hig]), if_neg (by simp [hig])]
      · by_cases hm : g ∈ st.stack
        · rw [if_pos ⟨eq_false_of_ne_true hig, hm⟩,
            if_pos (by simp [eq_false_of_ne_true hig, hm])]
        · rw [if_neg (fun hc => hm hc.2), if_neg (by simp [hm])]
    · intro g
      show (getFr (regTest ti st).frames g).only = ((regTest ti st).registry).countP (touchesOnly g)
      rw [regTest_only ti st nd slt g, regTest_registry, List.countP_append, oeq g]
      simp only [List.countP_cons, List.countP_nil, Nat.zero_add]
      congr 1
      show (if ti.only = true ∧ g ∈ st.stack then 1 else 0)
        = if (ti.only && st.stack.contains g) = true then 1 else 0
      by_cases ho : ti.only = true
      · by_cases hm : g ∈ st.stack
        · rw [if_pos ⟨ho, hm⟩, if_pos (by simp [ho, hm])]
        · rw [if_neg (fun hc => hm hc.2), if_neg (by simp [hm])]
      · rw [if_neg (fun hc => ho hc.1), if_neg (by simp [ho])]
    · intro g
      show (getFr (regTest ti st).frames g).completed = 0
      rw [regTest_frames_proj (fun f => f.completed) (fun _ => rfl) (fun _ => rfl) ti st g]
      exact cz g
    · intro g
      show (getFr (regTest ti st).frames g).completedOnly = 0
      rw [regTest_frames_proj (fun f => f.completedOnly) (fun _ => rfl) (fun _ => rfl) ti st g]
      exact coz g

theorem regInv_applyOps {σ : Type} (ops : List (Op σ)) (st : SuiteSt σ)
    (inv : RegInv st) : RegInv (applyOps ops st) := by
  induction ops generalizing st with
  | nil => exact inv
  | cons op rest ih => exact ih _ (regInv_applyOp st op inv)

theorem regInv_suiteOf {σ : Type} (ops : List (Op σ)) (nm : String) (o : RunOpts) :
    RegInv (suiteOf σ ops nm o) :=
  regInv_applyOps ops _ (regInv_init σ nm o)

/-- Every selected test comes from the registry. -/
theorem testsToRun_sublist {σ : Type} (tests : List (Test σ)) (f : Test σ → Bool)
    (ff : Bool) : ((mkRunner tests f ff).testsToRun).Sublist tests := by
  show ((if !(tests.filter (fun t => t.only)).isEmpty then tests.filter (fun t => t.only)
      else tests).filter f).Sublist tests
  by_cases hE : (tests.filter (fun t => t.only)).isEmpty = true
  · simp only [hE, Bool.not_true, Bool.false_eq_true, if_false]
    exact List.filter_sublist tests
  · simp only [eq_false_of_ne_true hE, Bool.not_false, if_pos rfl]
    exact List.Sublist.trans (List.filter_sublist _) (List.filter_sublist tests)

theorem runTest_frames_length {σ : Type} (t : Test σ) (r : RunSt σ) :
    (runTest t r).1.exec.frames.length = r.exec.frames.length := by
  rw [runTest_exec]
  by_cases hig : t.ignore = true
  · rw [if_pos hig]
  · rw [if_neg hig]
    rcases runWrapped_frames_cases t r.exec with h | h
    · rw [h]
    · rw [h, bookkeep_length]

/-- The run loop never changes `waiting` or `only`. -/
theorem runTests_waiting_only {σ : Type} : ∀ (ts : List (Test σ)) (r : RunSt σ) (g : Nat),
    (getFr (runTests false ts r).exec.frames g).waiting = (getFr r.exec.frames g).waiting ∧
    (getFr (runTests false ts r).exec.frames g).only = (getFr r.exec.frames g).only := by
  intro ts
  induction ts with
  | nil => intro r g; exact ⟨rfl, rfl⟩
  | cons t rest ih =>
    intro r g
    rw [runTests_cons_false]
    obtain ⟨ihw, iho⟩ := ih (runTest t r).1 g
    rw [ihw, iho]
    rw [runTest_exec]
    by_cases hig : t.ignore = true
    · rw [if_pos hig]; exact ⟨rfl, rfl⟩
    · rw [if_neg hig]
      rcases runWrapped_frames_cases t r.exec with h | h
      · rw [h]; exact ⟨rfl, rfl⟩
      · rw [h, bookkeep_waiting, bookkeep_only]; exact ⟨rfl, rfl⟩

/-- The central counter inequality of a run loop: processing preserves
`completed + (remaining touching tests) ≤ waiting` and its
`completedOnly`/`only` counterpart at every frame. -/
theorem c5_loop {σ : Type} : ∀ (ts : List (Test σ)) (r : RunSt σ),
    (∀ t ∈ ts, t.snapshot.Nodup) →
    (∀ t ∈ ts, ∀ i ∈ t.snapshot, i < r.exec.frames.length) →
    (∀ g, (getFr r.exec.frames g).completed + ts.countP (touches g)
        ≤ (getFr r.exec.frames g).waiting) →
    (∀ g, (getFr r.exec.frames g).completedOnly + ts.countP (touchesOnly g)
        ≤ (getFr r.exec.frames g).only) →
    ∀ g, (getFr (runTests false ts r).exec.frames g).completed
        ≤ (getFr (runTests false ts r).exec.frames g).waiting ∧
      (getFr (runTests false ts r).exec.frames g).completedOnly
        ≤ (getFr (runTests false ts r).exec.frames g).only := by
  intro ts
  induction ts with
  | nil =>
    intro r _ _ hw ho g
    have h1 := hw g
    have h2 := ho g
    simp only [List.countP_nil, Nat.add_zero] at h1 h2
    exact ⟨h1, h2⟩
  | cons t rest ih =>
    intro r hnd hlt hw ho g
    rw [runTests_cons_false]
    have hlen := runTest_frames_length t r
    refine ih (runTest t r).1 (fun t' ht' => hnd t' (List.mem_cons_of_mem t ht'))
      (fun t' ht' i hi => by rw [hlen]; exact hlt t' (List.mem_cons_of_mem t ht') i hi)
      ?_ ?_ g
    · intro g'
      rw [runTest_exec]
      by_cases hig : t.ignore = true
      · rw [if_pos hig]
        refine Nat.le_trans ?_ (hw g')
        have : touches g' t = false := by simp [touches, hig]
        simp [List.countP_cons, this]
      · rw [if_neg hig]
        rcases runWrapped_frames_cases t r.exec with h | h
        · rw [h]
          refine Nat.le_trans ?_ (hw g')
          simp only [List.countP_cons]
          omega
        · rw [h, bookkeep_waiting]
          by_cases hin : g' < r.exec.frames.length
          · by_cases hm : g' ∈ t.snapshot
            · rw [bookkeep_completed_mem _ _ _ _ (hnd t (List.mem_cons_self t rest)) hm hin]
              have htc : touches g' t = true := by
                simp [touches, eq_false_of_ne_true hig, hm]
              have := hw g'
              simp only [List.countP_cons, htc, if_pos] at this
              omega
            · rw [bookkeep_completed_notMem _ _ _ _ hm]
              refine Nat.le_trans ?_ (hw g')
              simp only [List.countP_cons]
              omega
          · rw [show getFr (bookkeep t.only t.snapshot r.exec.frames) g'
                = getFr r.exec.frames g' from
                getFr_updEach_out _ _ _ _ (Nat.le_of_not_lt hin)]
            refine Nat.le_trans ?_ (hw g')
            simp only [List.countP_cons]
            omega
    · intro g'
      rw [runTest_exec]
      by_cases hig : t.ignore = true
      · rw [if_pos hig]
        refine Nat.le_trans ?_ (ho g')
        simp only [List.countP_cons]
        omega
      · rw [if_neg hig]
        rcases runWrapped_frames_cases t r.exec with h | h
        · rw [h]
          refine Nat.le_trans ?_ (ho g')
          simp only [List.countP_cons]
          omega
        · rw [h, bookkeep_only]
          by_cases hin : g' < r.exec.frames.length
          · by_cases hm : g' ∈ t.snapshot
            · rw [bookkeep_completedOnly_mem _ _ _ _ (hnd t (List.mem_cons_self t rest)) hm hin]
              have := ho g'
              simp only [List.countP_cons] at this
              by_cases hto : t.only = true
              · have htc : touchesOnly g' t = true := by simp [touchesOnly, hto, hm]
                simp only [htc, if_pos] at this
                rw [if_pos hto]
                omega
              · rw [if_neg hto]
                omega
            · rw [bookkeep_completedOnly_notMem _ _ _ _ hm]
              refine Nat.le_trans ?_ (ho g')
              simp only [List.countP_cons]
              omega
          · rw [show getFr (bookkeep t.only t.snapshot r.exec.frames) g'
                = getFr r.exec.frames g' from
                getFr_updEach_out _ _ _ _ (Nat.le_of_not_lt hin)]
            refine Nat.le_trans ?_ (ho g')
            simp only [List.countP_cons]
            omega

/-- C5, amended: for every state reachable by registration operations
followed by any prefix of one run cycle, every frame unconditionally
satisfies `completed ≤ waiting` and `completedOnly ≤ only`; and
`only ≤ waiting` holds as well provided no test was registered with both
`ignore` and `only` set (a registration with both increments `only` but
not `waiting`, breaking that inequality — see the counterexample). -/
theorem c5_counter_invariants {σ : Type} (ops : List (Op σ)) (nm : String) (o : RunOpts)
    (compile : String → String → Bool) (opts : RunOpts) (w : σ) (k g : Nat) :
    (getFr (framesAfter compile opts (suiteOf σ ops nm o) w k) g).completed
      ≤ (getFr (framesAfter compile opts (suiteOf σ ops nm o) w k) g).waiting ∧
    (getFr (framesAfter compile opts (suiteOf σ ops nm o) w k) g).completedOnly
      ≤ (getFr (framesAfter compile opts (suiteOf σ ops nm o) w k) g).only ∧
    ((∀ t ∈ (suiteOf σ ops nm o).registry, t.ignore = false ∨ t.only = false) →
      (getFr (framesAfter compile opts (suiteOf σ ops nm o) w k) g).only
        ≤ (getFr (framesAfter compile opts (suiteOf σ ops nm o) w k) g).waiting) := by
  have inv := regInv_suiteOf ops nm o
  have hsub : (((mkRunner (suiteOf σ ops nm o).registry
      (createFilterFn compile opts.filter opts.skip) opts.failFast).testsToRun.take k)).Sublist
      (suiteOf σ ops nm o).registry :=
    List.Sublist.trans (List.take_sublist k _) (testsToRun_sublist _ _ _)
  have hmem : ∀ t ∈ ((mkRunner (suiteOf σ ops nm o).registry
      (createFilterFn compile opts.filter opts.skip) opts.failFast).testsToRun.take k),
      t ∈ (suiteOf σ ops nm o).registry :=
    fun t ht => List.Sublist.mem ht hsub
  simp only [framesAfter]
  have hloop := c5_loop
    ((mkRunner (suiteOf σ ops nm o).registry
      (createFilterFn compile opts.filter opts.skip) opts.failFast).testsToRun.take k)
    (initRunSt (mkRunner (suiteOf σ ops nm o).registry
      (createFilterFn compile opts.filter opts.skip) opts.failFast)
      { frames := (suiteOf σ ops nm o).frames, world := w, log := [] })
    (fun t ht => inv.snapNodup t (hmem t ht))
    (fun t ht i hi => inv.snapLt t (hmem t ht) i hi)
    (fun g' => by
      rw [show (getFr (initRunSt (mkRunner (suiteOf σ ops nm o).registry
          (createFilterFn compile opts.filter opts.skip) opts.failFast)
          { frames := (suiteOf σ ops nm o).frames, world := w, log := [] }).exec.frames g')
          = getFr (suiteOf σ ops nm o).frames g' from rfl,
        inv.completedZero g', inv.waitingEq g', Nat.zero_add]
      exact List.Sublist.countP_le _ hsub)
    (fun g' => by
      rw [show (getFr (initRunSt (mkRunner (suiteOf σ ops nm o).registry
          (createFilterFn compile opts.filter opts.skip) opts.failFast)
          { frames := (suiteOf σ ops nm o).frames, world := w, log := [] }).exec.frames g')
          = getFr (suiteOf σ ops nm o).frames g' from rfl,
        inv.completedOnlyZero g', inv.onlyEq g', Nat.zero_add]
      exact List.Sublist.countP_le _ hsub)
    g
  refine ⟨hloop.1, hloop.2, fun hio => ?_⟩
  obtain ⟨hwp, hop⟩ := runTests_waiting_only
    ((mkRunner (suiteOf σ ops nm o).registry
      (createFilterFn compile opts.filter opts.skip) opts.failFast).testsToRun.take k)
    (initRunSt (mkRunner (suiteOf σ ops nm o).registry
      (createFilterFn compile opts.filter opts.skip) opts.failFast)
      { frames := (suiteOf σ ops nm o).frames, world := w, log := [] }) g
  rw [hwp, hop]
  rw [show (getFr (initRunSt (mkRunner (suiteOf σ ops nm o).registry
      (createFilterFn compile opts.filter opts.skip) opts.failFast)
      { frames := (suiteOf σ ops nm o).frames, world := w, log := [] }).exec.frames g)
      = getFr (suiteOf σ ops nm o).frames g from rfl,
    inv.onlyEq g, inv.waitingEq g]
  refine List.countP_mono_left (fun t ht hto => ?_)
  rcases hio t ht with hig | ho2
  · simp only [touchesOnly, Bool.and_eq_true] at hto
    simp only [touches, Bool.and_eq_true]
    exact ⟨by simp [hig], hto.2⟩
  · simp only [touchesOnly, Bool.and_eq_true, ho2] at hto
    exact absurd hto.1 (by simp)

/-- Witness for C5's amended theorem at a concrete input: one ordinary
test in one group, after running the whole suite (prefix length 1). -/
theorem c5_counter_invariants_witness :
    (getFr (framesAfter substrCompile { exitFlag := false }
        (suiteOf Unit [Op.openGroup "g",
          Op.test { name := "t", body := pureBody Unit }, Op.closeGroup] "s" {}) () 1) 1).completed
      ≤ (getFr (framesAfter substrCompile { exitFlag := false }
        (suiteOf Unit [Op.openGroup "g",
          Op.test { name := "t", body := pureBody Unit }, Op.closeGroup] "s" {}) () 1) 1).waiting ∧
    (getFr (framesAfter substrCompile { exitFlag := false }
        (suiteOf Unit [Op.openGroup "g",
          Op.test { name := "t", body := pureBody Unit }, Op.closeGroup] "s" {}) () 1) 1).completedOnly
      ≤ (getFr (framesAfter substrCompile { exitFlag := false }
        (suiteOf Unit [Op.openGroup "g",
          Op.test { name := "t", body := pureBody Unit }, Op.closeGroup] "s" {}) () 1) 1).only ∧
    (getFr (framesAfter substrCompile { exitFlag := false }
        (suiteOf Unit [Op.openGroup "g",
          Op.test { name := "t", body := pureBody Unit }, Op.closeGroup] "s" {}) () 1) 1).only
      ≤ (getFr (framesAfter substrCompile { exitFlag := false }
        (suiteOf Unit [Op.openGroup "g",
          Op.test { name := "t", body := pureBody Unit }, Op.closeGroup] "s" {}) () 1) 1).waiting := by
  obtain ⟨h1, h2, h3⟩ := c5_counter_invariants [Op.openGroup "g",
    Op.test { name := "t", body := pureBody Unit }, Op.closeGroup] "s" {}
    substrCompile { exitFlag := false } () 1 1
  exact ⟨h1, h2, h3 (by decide)⟩

theorem count_body_phase (n : String) (p : HPhase) (g : Nat) :
    List.count (LEv.phase p g) [LEv.body n] = 0 := by
  simp [List.count_singleton]

/-- Hooks preserved through the run loop: executing tests only bumps
counters, so `hooksOk` is stable. -/
theorem hooksOk_runTest {σ : Type} (t : Test σ) (r : RunSt σ)
    (hok : hooksOk r.exec.frames) : hooksOk (runTest t r).1.exec.frames := by
  rw [runTest_exec]
  by_cases hig : t.ignore = true
  · rw [if_pos hig]; exact hok
  · rw [if_neg hig]
    rcases runWrapped_frames_cases t r.exec with h | h
    · rw [h]; exact hok
    · rw [h]; exact hooksOk_bookkeep _ _ _ hok

/-- The run-loop invariant behind C4: at a frame `g` with `only = 0`,
whose remaining touching tests exactly fill its `waiting` quota, the
`beforeAll` join fires at the first touching test and the `afterAll`
join at the last, each exactly once over the rest of the run. -/
theorem c4_loop {σ : Type} (g : Nat) : ∀ (ts : List (Test σ)) (r : RunSt σ),
    hooksOk r.exec.frames →
    (∀ t ∈ ts, t.snapshot.Nodup) →
    (∀ t ∈ ts, ∀ i ∈ t.snapshot, i < r.exec.frames.length) →
    (getFr r.exec.frames g).only = 0 →
    (getFr r.exec.frames g).waiting
      = (getFr r.exec.frames g).completed + ts.countP (touches g) →
    0 < (getFr r.exec.frames g).waiting →
    r.exec.log.count (LEv.phase HPhase.bAll g)
      = (if (getFr r.exec.frames g).completed = 0 then 0 else 1) →
    r.exec.log.count (LEv.phase HPhase.aAll g)
      = (if ts.countP (touches g) = 0 then 1 else 0) →
    (runTests false ts r).exec.log.count (LEv.phase HPhase.bAll g) = 1 ∧
    (runTests false ts r).exec.log.count (LEv.phase HPhase.aAll g) = 1 := by
  intro ts
  induction ts with
  | nil =>
    intro r _ _ _ _ hw hpos hcb hca
    simp only [List.countP_nil, Nat.add_zero] at hw
    simp only [runTests]
    refine ⟨?_, ?_⟩
    · rw [hcb, if_neg (by omega)]
    · rw [hca]
      simp
  | cons t rest ih =>
    intro r hok hnd hlt hgo hw hpos hcb hca
    rw [runTests_cons_false]
    have hlen := runTest_frames_length t r
    by_cases hig : t.ignore = true
    · have hex : (runTest t r).1.exec = r.exec := by rw [runTest_exec, if_pos hig]
      have htf : touches g t = false := by simp [touches, hig]
      refine ih (runTest t r).1 (by rw [hex]; exact hok)
        (fun t' ht' => hnd t' (List.mem_cons_of_mem t ht'))
        (fun t' ht' i hi => by
          rw [hex]; exact hlt t' (List.mem_cons_of_mem t ht') i hi)
        (by rw [hex]; exact hgo)
        (by rw [hex]
            rw [hw]
            simp [List.countP_cons, htf])
        (by rw [hex]; exact hpos)
        (by rw [hex]; exact hcb)
        (by rw [hex]
            rw [hca]
            simp [List.countP_cons, htf])
    · have hexec : (runTest t r).1.exec = (runWrapped t r.exec).1 := by
        rw [runTest_exec, if_neg hig]
      obtain ⟨hfr, hlog, _⟩ := runWrapped_ok t r.exec hok
      have hnd_t := hnd t (List.mem_cons_self t rest)
      have hlt_t := hlt t (List.mem_cons_self t rest)
      have hwait' := bookkeep_waiting t.only t.snapshot r.exec.frames g
      have honly' := bookkeep_only t.only t.snapshot r.exec.frames g
      have hokB : hooksOk (runTest t r).1.exec.frames := hooksOk_runTest t r hok
      by_cases hm : g ∈ t.snapshot
      · have hglt : g < r.exec.frames.length := hlt_t g hm
        have htc : touches g t = true := by
          simp [touches, eq_false_of_ne_true hig, hm]
        have hcomp' : (getFr (bookkeep t.only t.snapshot r.exec.frames) g).completed
            = (getFr r.exec.frames g).completed + 1 :=
          bookkeep_completed_mem _ _ _ _ hnd_t hm hglt
        have hwr : (getFr r.exec.frames g).waiting
            = (getFr r.exec.frames g).completed + (rest.countP (touches g) + 1) := by
          rw [hw]
          simp [List.countP_cons, htc]
        have hcblog : (runTest t r).1.exec.log.count (LEv.phase HPhase.bAll g)
            = r.exec.log.count (LEv.phase HPhase.bAll g)
              + (if (getFr r.exec.frames g).completed = 0 then 1 else 0) := by
          rw [hexec, hlog]
          rw [List.count_append, List.count_append, List.count_append]
          rw [setupChunk_count_bAll_mem _ _ _ hnd_t hm, count_body_phase,
            teardownChunk_count_bAll]
          omega
        have hfire : fireAfterAll (getFr (bookkeep t.only t.snapshot r.exec.frames) g)
            = (rest.countP (touches g) == 0) := by
          unfold fireAfterAll
          rw [hcomp', hwait', honly', hgo]
          by_cases hr0 : rest.countP (touches g) = 0
          · rw [hr0]
            simp [hwr, hr0]
          · have h1 : (((getFr r.exec.frames g).waiting)
                == ((getFr r.exec.frames g).completed + 1)) = false := by
              rw [beq_eq_false_iff_ne]
              omega
            have h2 : (rest.countP (touches g) == 0) = false := by
              rw [beq_eq_false_iff_ne]
              exact hr0
            rw [h1, h2]
            simp
        have hcalog : (runTest t r).1.exec.log.count (LEv.phase HPhase.aAll g)
            = r.exec.log.count (LEv.phase HPhase.aAll g)
              + (if rest.countP (touches g) = 0 then 1 else 0) := by
          rw [hexec, hlog]
          rw [List.count_append, List.count_append, List.count_append]
          rw [setupChunk_count_aAll, count_body_phase,
            teardownChunk_count_aAll_mem _ _ _ ((List.nodup_reverse).mpr hnd_t)
              ((List.mem_reverse).mpr hm), hfire]
          by_cases hr0 : rest.countP (touches g) = 0
          · rw [if_pos hr0, if_pos (by simp [hr0])]
          · rw [if_neg hr0, if_neg (by simp [hr0])]
        refine ih (runTest t r).1 hokB
          (fun t' ht' => hnd t' (List.mem_cons_of_mem t ht'))
          (fun t' ht' i hi => by
            rw [hlen]; exact hlt t' (List.mem_cons_of_mem t ht') i hi)
          ?_ ?_ ?_ ?_ ?_
        · rw [hexec, hfr, honly']
          exact hgo
        · rw [hexec, hfr, hwait', hcomp']
          omega
        · rw [hexec, hfr, hwait']
          exact hpos
        · rw [hcblog, hcb, hexec, hfr, hcomp']
          by_cases hc0 : (getFr r.exec.frames g).completed = 0 <;> simp [hc0]
        · rw [hcalog, hca]
          have hcc : (t :: rest).countP (touches g) = rest.countP (touches g) + 1 := by
            simp [List.countP_cons, htc]
          rw [hcc, if_neg (Nat.succ_ne_zero _)]
          simp
      · have htf : touches g t = false := by simp [touches, hm]
        have hcomp' : (getFr (bookkeep t.only t.snapshot r.exec.frames) g).completed
            = (getFr r.exec.frames g).completed :=
          bookkeep_completed_notMem _ _ _ _ hm
        have hcblog : (runTest t r).1.exec.log.count (LEv.phase HPhase.bAll g)
            = r.exec.log.count (LEv.phase HPhase.bAll g) := by
          rw [hexec, hlog]
          rw [List.count_append, List.count_append, List.count_append]
          rw [setupChunk_count_bAll_notMem _ _ _ hm, count_body_phase,
            teardownChunk_count_bAll]
          omega
        have hcalog : (runTest t r).1.exec.log.count (LEv.phase HPhase.aAll g)
            = r.exec.log.count (LEv.phase HPhase.aAll g) := by
          rw [hexec, hlog]
          rw [List.count_append, List.count_append, List.count_append]
          rw [setupChunk_count_aAll, count_body_phase,
            teardownChunk_count_aAll_notMem _ _ _
              (fun hmr => hm ((List.mem_reverse).mp hmr))]
          omega
        refine ih (runTest t r).1 hokB
          (fun t' ht' => hnd t' (List.mem_cons_of_mem t ht'))
          (fun t' ht' i hi => by
            rw [hlen]; exact hlt t' (List.mem_cons_of_mem t ht') i hi)
          ?_ ?_ ?_ ?_ ?_
        · rw [hexec, hfr, honly']
          exact hgo
        · rw [hexec, hfr, hwait', hcomp']
          rw [hw]
          simp [List.countP_cons, htf]
        · rw [hexec, hfr, hwait']
          exact hpos
        · rw [hcblog, hcb, hexec, hfr, hcomp']
        · rw [hcalog, hca]
          simp [List.countP_cons, htf]

theorem applyOp_pendingProp {σ : Type} (st : SuiteSt σ) (op : Op σ) :
    (applyOp st op).pendingProp = st.pendingProp := by
  cases op with
  | test ti => rfl
  | hookAdd ph h =>
    show (addHook ph h st).pendingProp = st.pendingProp
    unfold addHook
    cases st.stack.getLast? <;> rfl
  | openGroup n => rfl
  | closeGroup =>
    show (if st.stack.length ≤ 1 then st else _).pendingProp = _
    by_cases hl : st.stack.length ≤ 1
    · rw [if_pos hl]
    · rw [if_neg hl]

theorem applyOp_resolved {σ : Type} (st : SuiteSt σ) (op : Op σ) :
    (applyOp st op).resolved = st.resolved := by
  cases op with
  | test ti => rfl
  | hookAdd ph h =>
    show (addHook ph h st).resolved = st.resolved
    unfold addHook
    cases st.stack.getLast? <;> rfl
  | openGroup n => rfl
  | closeGroup =>
    show (if st.stack.length ≤ 1 then st else _).resolved = _
    by_cases hl : st.stack.length ≤ 1
    · rw [if_pos hl]
    · rw [if_neg hl]

theorem applyOps_pendingProp {σ : Type} (ops : List (Op σ)) (st : SuiteSt σ) :
    (applyOps ops st).pendingProp = st.pendingProp := by
  induction ops generalizing st with
  | nil => rfl
  | cons op rest ih =>
    show (applyOps rest (applyOp st op)).pendingProp = _
    rw [ih, applyOp_pendingProp]

theorem applyOps_resolved {σ : Type} (ops : List (Op σ)) (st : SuiteSt σ) :
    (applyOps ops st).resolved = st.resolved := by
  induction ops generalizing st with
  | nil => rfl
  | cons op rest ih =>
    show (applyOps rest (applyOp st op)).resolved = _
    rw [ih, applyOp_resolved]

theorem suiteOf_pendingProp {σ : Type} (ops : List (Op σ)) (nm : String) (o : RunOpts) :
    (suiteOf σ ops nm o).pendingProp = true := by
  unfold suiteOf
  rw [applyOps_pendingProp]
  rfl

theorem suiteOf_resolved {σ : Type} (ops : List (Op σ)) (nm : String) (o : RunOpts) :
    (suiteOf σ ops nm o).resolved = none := by
  unfold suiteOf
  rw [applyOps_resolved]
  rfl

theorem suiteRun_eq_exec {σ : Type} (compile : String → String → Bool)
    (opts : RunOpts) (st : SuiteSt σ) (w : σ) (h : st.pendingProp = true) :
    suiteRun compile opts st w = suiteRunExec compile opts st w := by
  unfold suiteRun
  rw [if_neg (by simp [h])]

theorem mkRunner_noonly {σ : Type} (tests : List (Test σ)) (f : Test σ → Bool)
    (ff : Bool) (h : ∀ t ∈ tests, t.only = false) :
    (mkRunner tests f ff).testsToRun = tests.filter f ∧
    (mkRunner tests f ff).usedOnly = false := by
  have hnil : tests.filter (fun t => t.only) = [] := by
    rw [List.filter_eq_nil_iff]
    intro t ht
    simp [h t ht]
  constructor <;> simp [mkRunner, hnil]

theorem countP_filter_touches {σ : Type} (tests : List (Test σ)) (f : Test σ → Bool)
    (g : Nat) (hf : ∀ t ∈ tests, touches g t = true → f t = true) :
    (tests.filter f).countP (touches g) = tests.countP (touches g) := by
  rw [List.countP_filter]
  refine List.countP_congr (fun t ht => ?_)
  rw [Bool.and_eq_true]
  exact ⟨fun hb => hb.1, fun hb => ⟨hb, hf t ht hb⟩⟩

theorem suiteRunExec_log_nf {σ : Type} (compile : String → String → Bool)
    (opts : RunOpts) (st : SuiteSt σ) (w : σ)
    (hts : opts.timeoutOpt = none) (hff : opts.failFast = false) :
    (suiteRunExec compile opts st w).log =
      (runTests false
        ((mkRunner st.registry (createFilterFn compile opts.filter opts.skip)
          false).testsToRun)
        (initRunSt (mkRunner st.registry (createFilterFn compile opts.filter opts.skip)
          false) { frames := st.frames, world := w, log := [] })).exec.log := by
  simp only [suiteRunExec, hts, hff,
    show (mkRunner st.registry (createFilterFn compile opts.filter opts.skip)
      false).failFast = false from rfl,
    driveTests_none_false]
  simp

/-- C4, amended: in a run with no `only` test, no rejecting hook, no
per-test timeout firing, fail-fast off and no suite-level timer, a frame
whose non-ignored tests all pass the filter/skip predicate and which has
at least one non-ignored test has its `beforeAll` join invoked exactly
once and its `afterAll` join invoked exactly once over the whole run,
regardless of nesting depth.  (The original claim's premise — only that
filtering does not exclude ALL of the group's tests — is insufficient:
see the counterexample, where one excluded test keeps
`waiting === completed` from ever holding.) -/
theorem c4_before_after_all_once {σ : Type} (ops : List (Op σ)) (nm : String)
    (o : RunOpts) (compile : String → String → Bool) (opts : RunOpts) (w : σ) (g : Nat)
    (hts : opts.timeoutOpt = none) (hff : opts.failFast = false)
    (hnoonly : ∀ t ∈ (suiteOf σ ops nm o).registry, t.only = false)
    (hhooks : hooksOk (suiteOf σ ops nm o).frames)
    (_htime : ∀ t ∈ (suiteOf σ ops nm o).registry, t.time ≤ t.timeoutMs)
    (hfilter : ∀ t ∈ (suiteOf σ ops nm o).registry, touches g t = true →
      createFilterFn compile opts.filter opts.skip t = true)
    (hex : ∃ t ∈ (suiteOf σ ops nm o).registry, touches g t = true) :
    ((suiteRun compile opts (suiteOf σ ops nm o) w).log).count (LEv.phase HPhase.bAll g) = 1 ∧
    ((suiteRun compile opts (suiteOf σ ops nm o) w).log).count (LEv.phase HPhase.aAll g) = 1 := by
  have inv := regInv_suiteOf ops nm o
  rw [suiteRun_eq_exec compile opts _ w (suiteOf_pendingProp ops nm o),
    suiteRunExec_log_nf compile opts _ w hts hff]
  have htr := (mkRunner_noonly (suiteOf σ ops nm o).registry
    (createFilterFn compile opts.filter opts.skip) false hnoonly).1
  have hcnt : ((mkRunner (suiteOf σ ops nm o).registry
      (createFilterFn compile opts.filter opts.skip) false).testsToRun).countP (touches g)
      = ((suiteOf σ ops nm o).registry).countP (touches g) := by
    rw [htr]
    exact countP_filter_touches _ _ g hfilter
  have hposreg : 0 < ((suiteOf σ ops nm o).registry).countP (touches g) :=
    List.countP_pos_iff.mpr hex
  have hmem : ∀ t ∈ (mkRunner (suiteOf σ ops nm o).registry
      (createFilterFn compile opts.filter opts.skip) false).testsToRun,
      t ∈ (suiteOf σ ops nm o).registry := by
    intro t ht
    rw [htr] at ht
    exact (List.mem_filter.mp ht).1
  refine c4_loop g _ _ hhooks
    (fun t ht => inv.snapNodup t (hmem t ht))
    (fun t ht i hi => inv.snapLt t (hmem t ht) i hi)
    ?_ ?_ ?_ ?_ ?_
  · show (getFr (suiteOf σ ops nm o).frames g).only = 0
    rw [inv.onlyEq g, List.countP_eq_zero]
    intro t ht
    simp [touchesOnly, hnoonly t ht]
  · show (getFr (suiteOf σ ops nm o).frames g).waiting
      = (getFr (suiteOf σ ops nm o).frames g).completed + _
    rw [inv.waitingEq g, inv.completedZero g, hcnt, Nat.zero_add]
  · show 0 < (getFr (suiteOf σ ops nm o).frames g).waiting
    rw [inv.waitingEq g]
    exact hposreg
  · show List.count (LEv.phase HPhase.bAll g) [] =
      if (getFr (suiteOf σ ops nm o).frames g).completed = 0 then 0 else 1
    rw [inv.completedZero g]
    simp
  · show List.count (LEv.phase HPhase.aAll g) [] = _
    rw [hcnt, if_neg (by omega)]
    rfl

/-- Witness for C4's amended theorem: a group (frame 1) with `beforeAll`
and `afterAll` hooks and two ordinary tests, run unfiltered. -/
theorem c4_before_after_all_once_witness :
    ((suiteRun substrCompile { exitFlag := false }
        (suiteOf Unit [Op.openGroup "g",
          Op.hookAdd HPhase.bAll (noopHook Unit 1), Op.hookAdd HPhase.aAll (noopHook Unit 2),
          Op.test { name := "a", body := pureBody Unit },
          Op.test { name := "b", body := pureBody Unit }, Op.closeGroup] "s" {}) ()).log).count
      (LEv.phase HPhase.bAll 1) = 1 ∧
    ((suiteRun substrCompile { exitFlag := false }
        (suiteOf Unit [Op.openGroup "g",
          Op.hookAdd HPhase.bAll (noopHook Unit 1), Op.hookAdd HPhase.aAll (noopHook Unit 2),
          Op.test { name := "a", body := pureBody Unit },
          Op.test { name := "b", body := pureBody Unit }, Op.closeGroup] "s" {}) ()).log).count
      (LEv.phase HPhase.aAll 1) = 1 :=
  c4_before_after_all_once [Op.openGroup "g",
    Op.hookAdd HPhase.bAll (noopHook Unit 1), Op.hookAdd HPhase.aAll (noopHook Unit 2),
    Op.test { name := "a", body := pureBody Unit },
    Op.test { name := "b", body := pureBody Unit }, Op.closeGroup] "s" {}
    substrCompile { exitFlag := false } () 1 rfl rfl (by decide)
    (by
      intro f hf
      fin_cases hf <;>
        exact ⟨fun h hm w => by fin_cases hm; all_goals rfl,
          fun h hm w => by fin_cases hm; all_goals rfl,
          fun h hm w => by fin_cases hm; all_goals rfl,
          fun h hm w => by fin_cases hm; all_goals rfl⟩)
    (by decide) (by decide) (by decide)

theorem createFilterFn_none {σ : Type} (compile : String → String → Bool)
    (d : Test σ) : createFilterFn compile none none d = true := rfl

theorem addHook_registry {σ : Type} (ph : HPhase) (h : Hook σ) (st : SuiteSt σ) :
    (addHook ph h st).registry = st.registry := by
  unfold addHook
  cases st.stack.getLast? <;> rfl

theorem addHook_frames_some {σ : Type} (ph : HPhase) (h : Hook σ) (st : SuiteSt σ)
    (gT : Nat) (hgl : st.stack.getLast? = some gT) :
    (addHook ph h st).frames = updFr st.frames gT (pushHook ph h) := by
  unfold addHook
  rw [hgl]

theorem hooksOk_runTests {σ : Type} : ∀ (ts : List (Test σ)) (r : RunSt σ),
    hooksOk r.exec.frames → hooksOk (runTests false ts r).exec.frames := by
  intro ts
  induction ts with
  | nil => intro r hok; exact hok
  | cons t rest ih =>
    intro r hok
    rw [runTests_cons_false]
    exact ih _ (hooksOk_runTest t r hok)

/-- The hook lists of every frame are unchanged by the run loop. -/
theorem runTests_beforeEach {σ : Type} : ∀ (ts : List (Test σ)) (r : RunSt σ) (g : Nat),
    (getFr (runTests false ts r).exec.frames g).beforeEach
      = (getFr r.exec.frames g).beforeEach := by
  intro ts
  induction ts with
  | nil => intro r g; rfl
  | cons t rest ih =>
    intro r g
    rw [runTests_cons_false, ih]
    rw [runTest_exec]
    by_cases hig : t.ignore = true
    · rw [if_pos hig]
    · rw [if_neg hig]
      rcases runWrapped_frames_cases t r.exec with h | h
      · rw [h]
      · rw [h]
        exact (bookkeep_hookLists t.only t.snapshot r.exec.frames g).2.1

/-- Every hook on the `beforeEach` list of a snapshot frame is invoked
during a successful setup phase. -/
theorem setupChunk_hook_mem {σ : Type} (fs : List (Frame σ)) (hk : Hook σ) :
    ∀ (snap : List Nat) (g : Nat), g ∈ snap →
    hk ∈ (getFr fs g).beforeEach → LEv.hook hk.id ∈ setupChunk fs snap := by
  intro snap
  induction snap with
  | nil => intro g hg _; exact absurd hg (by simp)
  | cons i rest ih =>
    intro g hg hmem
    rcases (List.mem_cons).1 hg with he | hgr
    · subst he
      simp only [setupChunk]
      refine List.mem_append.mpr (Or.inl (List.mem_append.mpr (Or.inr ?_)))
      exact List.mem_cons_of_mem _ (List.mem_map.mpr ⟨hk, hmem, rfl⟩)
    · simp only [setupChunk]
      exact List.mem_append.mpr (Or.inr (ih g hgr hmem))

/-- C10: a hook registered on a scope after a test of that scope was
registered still executes around that test.  For any prefix of
registration operations, registering a test `ti` and then a `beforeEach`
hook `h` on the still-open innermost scope yields a run whose log
invokes `h` before `ti`'s body: the snapshot copies only the frame
references, and the hook arrays are read from the live frame when the
wrapped function runs. -/
theorem c10_late_hook_applies {σ : Type} (pre : List (Op σ)) (nm : String) (o : RunOpts)
    (ti : TestInput σ) (h : Hook σ) (compile : String → String → Bool)
    (opts : RunOpts) (w : σ)
    (hts : opts.timeoutOpt = none) (hff : opts.failFast = false)
    (hfl : opts.filter = none) (hsk : opts.skip = none)
    (hig : ti.ignore = false)
    (hnoonly : ∀ t ∈ (suiteOf σ (pre ++ [Op.test ti, Op.hookAdd HPhase.bEach h]) nm o).registry,
      t.only = false)
    (hhooks : hooksOk (suiteOf σ (pre ++ [Op.test ti, Op.hookAdd HPhase.bEach h]) nm o).frames) :
    ∃ l₁ l₂,
      (suiteRun compile opts
        (suiteOf σ (pre ++ [Op.test ti, Op.hookAdd HPhase.bEach h]) nm o) w).log
        = l₁ ++ LEv.hook h.id :: l₂ ∧
      LEv.body (qualify (applyOps pre (initSuite σ nm o)) ti.name) ∈ l₂ := by
  have invP : RegInv (applyOps pre (initSuite σ nm o)) :=
    regInv_applyOps pre _ (regInv_init σ nm o)
  obtain ⟨gT, hgl⟩ : ∃ gT, (applyOps pre (initSuite σ nm o)).stack.getLast? = some gT := by
    have := (List.getLast?_isSome).mpr invP.stackNE
    exact Option.isSome_iff_exists.mp this
  have hst : suiteOf σ (pre ++ [Op.test ti, Op.hookAdd HPhase.bEach h]) nm o
      = addHook HPhase.bEach h (regTest ti (applyOps pre (initSuite σ nm o))) := by
    show applyOps (pre ++ [Op.test ti, Op.hookAdd HPhase.bEach h]) (initSuite σ nm o) = _
    unfold applyOps
    rw [List.foldl_append]
    rfl
  -- the registered wrapped test
  have hreg : (suiteOf σ (pre ++ [Op.test ti, Op.hookAdd HPhase.bEach h]) nm o).registry
      = (applyOps pre (initSuite σ nm o)).registry ++
        [{ name := qualify (applyOps pre (initSuite σ nm o)) ti.name, body := ti.body,
           time := ti.time, ignore := ti.ignore, only := ti.only,
           timeoutMs := ti.timeoutMs,
           snapshot := (applyOps pre (initSuite σ nm o)).stack }] := by
    rw [hst, addHook_registry, regTest_registry]
  have hstack2 : (regTest ti (applyOps pre (initSuite σ nm o))).stack.getLast? = some gT := hgl
  have hframes : (suiteOf σ (pre ++ [Op.test ti, Op.hookAdd HPhase.bEach h]) nm o).frames
      = updFr (regTest ti (applyOps pre (initSuite σ nm o))).frames gT
          (pushHook HPhase.bEach h) := by
    rw [hst, addHook_frames_some _ _ _ gT hstack2]
  have hgTlt : gT < (regTest ti (applyOps pre (initSuite σ nm o))).frames.length := by
    rw [regTest_frames_length]
    exact invP.stackLt gT (List.mem_of_mem_getLast? (Option.mem_def.mpr hgl))
  have hhookmem : h ∈ (getFr (suiteOf σ (pre ++ [Op.test ti, Op.hookAdd HPhase.bEach h]) nm o).frames gT).beforeEach := by
    rw [hframes, getFr_updFr_same _ _ _ hgTlt]
    show h ∈ (getFr (regTest ti (applyOps pre (initSuite σ nm o))).frames gT).beforeEach ++ [h]
    exact List.mem_append.mpr (Or.inr (List.mem_singleton.mpr rfl))
  have hgTsnap : gT ∈ (applyOps pre (initSuite σ nm o)).stack :=
    List.mem_of_mem_getLast? (Option.mem_def.mpr hgl)
  -- run shape
  rw [suiteRun_eq_exec compile opts _ w (suiteOf_pendingProp _ nm o),
    suiteRunExec_log_nf compile opts _ w hts hff]
  have htr := (mkRunner_noonly
    (suiteOf σ (pre ++ [Op.test ti, Op.hookAdd HPhase.bEach h]) nm o).registry
    (createFilterFn compile opts.filter opts.skip) false hnoonly).1
  have htr2 : (mkRunner
      (suiteOf σ (pre ++ [Op.test ti, Op.hookAdd HPhase.bEach h]) nm o).registry
      (createFilterFn compile opts.filter opts.skip) false).testsToRun
      = (suiteOf σ (pre ++ [Op.test ti, Op.hookAdd HPhase.bEach h]) nm o).registry := by
    rw [htr, hfl, hsk]
    exact List.filter_eq_self.mpr (fun t _ => createFilterFn_none compile t)
  set tR : Test σ := { name := qualify (applyOps pre (initSuite σ nm o)) ti.name, body := ti.body, time := ti.time, ignore := ti.ignore, only := ti.only, timeoutMs := ti.timeoutMs, snapshot := (applyOps pre (initSuite σ nm o)).stack } with htR
  rw [htr2, hreg, runTests_append_false]
  have key : ∀ r1 : RunSt σ, hooksOk r1.exec.frames →
      (getFr r1.exec.frames gT).beforeEach
        = (getFr (suiteOf σ (pre ++ [Op.test ti, Op.hookAdd HPhase.bEach h]) nm o).frames gT).beforeEach →
      ∃ l₁ l₂, (runTests false [tR] r1).exec.log = l₁ ++ LEv.hook h.id :: l₂ ∧
        LEv.body (qualify (applyOps pre (initSuite σ nm o)) ti.name) ∈ l₂ := by
    intro r1 hok1 hbe1
    have hone : runTests false [tR] r1 = (runTest tR r1).1 := by
      rw [runTests_cons_false]
      rfl
    rw [hone]
    have hexec : (runTest tR r1).1.exec = (runWrapped tR r1.exec).1 := by
      rw [runTest_exec, if_neg (show ¬ (tR.ignore = true) by rw [htR]; simp [hig])]
    obtain ⟨_, hlog, _⟩ := runWrapped_ok tR r1.exec hok1
    have hhk : LEv.hook h.id ∈ setupChunk r1.exec.frames tR.snapshot := by
      refine setupChunk_hook_mem r1.exec.frames h tR.snapshot gT ?_ ?_
      · show gT ∈ (applyOps pre (initSuite σ nm o)).stack
        exact hgTsnap
      · rw [hbe1]
        exact hhookmem
    obtain ⟨s1, s2, hsplit⟩ := List.append_of_mem hhk
    refine ⟨r1.exec.log ++ s1,
      s2 ++ [LEv.body tR.name] ++
        teardownChunk (bookkeep tR.only tR.snapshot r1.exec.frames) tR.snapshot.reverse,
      ?_, ?_⟩
    · rw [hexec, hlog, hsplit]
      simp
    · refine List.mem_append.mpr (Or.inl (List.mem_append.mpr (Or.inr ?_)))
      rw [htR]
      exact List.mem_singleton.mpr rfl
  exact key _ (hooksOk_runTests _ _ hhooks) (runTests_beforeEach _ _ gT)

theorem suiteRunExec_pendingProp {σ : Type} (compile : String → String → Bool)
    (opts : RunOpts) (st : SuiteSt σ) (w : σ) (h : st.pendingProp = true) :
    (suiteRunExec compile opts st w).suite.pendingProp = true := by
  simp only [suiteRunExec]
  repeat' split
  all_goals first | exact h | rfl

theorem suiteRunExec_resolved {σ : Type} (compile : String → String → Bool)
    (opts : RunOpts) (st : SuiteSt σ) (w : σ) (h : opts.reset = false) :
    (suiteRunExec compile opts st w).suite.resolved
      = some (st.resolved.getD (suiteRunExec compile opts st w).result) := by
  simp only [suiteRunExec, h]
  repeat' split
  all_goals first | rfl | exact absurd ‹false = true› (by simp)

/-- C1 (amended): with `reset` off, a second `run()` call does not
short-circuit on the cached result.  The `pending` flag that `deferred()`
copied by value into the returned object is still `true` after the first
run, so the second call takes the full execution path again over the
suite state left by the first run; only the `end` deferred keeps the
first run's resolved value (the second `resolve` is a no-op on it). -/
theorem c1_second_run_reexecutes {σ : Type} (compile : String → String → Bool)
    (opts₁ opts₂ : RunOpts) (ops : List (Op σ)) (nm : String) (o : RunOpts) (w : σ)
    (h₁ : opts₁.reset = false) (h₂ : opts₂.reset = false) :
    (suiteRun compile opts₁ (suiteOf σ ops nm o) w).suite.pendingProp = true ∧
    suiteRun compile opts₂ (suiteRun compile opts₁ (suiteOf σ ops nm o) w).suite
        ((suiteRun compile opts₁ (suiteOf σ ops nm o) w).world)
      = suiteRunExec compile opts₂ (suiteRun compile opts₁ (suiteOf σ ops nm o) w).suite
        ((suiteRun compile opts₁ (suiteOf σ ops nm o) w).world) ∧
    (suiteRun compile opts₁ (suiteOf σ ops nm o) w).suite.resolved
      = some (suiteRun compile opts₁ (suiteOf σ ops nm o) w).result ∧
    (suiteRun compile opts₂ (suiteRun compile opts₁ (suiteOf σ ops nm o) w).suite
        ((suiteRun compile opts₁ (suiteOf σ ops nm o) w).world)).suite.resolved
      = (suiteRun compile opts₁ (suiteOf σ ops nm o) w).suite.resolved := by
  have e₁ : suiteRun compile opts₁ (suiteOf σ ops nm o) w
      = suiteRunExec compile opts₁ (suiteOf σ ops nm o) w :=
    suiteRun_eq_exec _ _ _ _ (suiteOf_pendingProp ops nm o)
  have hp1 : (suiteRun compile opts₁ (suiteOf σ ops nm o) w).suite.pendingProp = true := by
    rw [e₁]
    exact suiteRunExec_pendingProp _ _ _ _ (suiteOf_pendingProp ops nm o)
  have e₂ : suiteRun compile opts₂ (suiteRun compile opts₁ (suiteOf σ ops nm o) w).suite
        ((suiteRun compile opts₁ (suiteOf σ ops nm o) w).world)
      = suiteRunExec compile opts₂ (suiteRun compile opts₁ (suiteOf σ ops nm o) w).suite
        ((suiteRun compile opts₁ (suiteOf σ ops nm o) w).world) :=
    suiteRun_eq_exec _ _ _ _ hp1
  have hr1 : (suiteRun compile opts₁ (suiteOf σ ops nm o) w).suite.resolved
      = some (suiteRun compile opts₁ (suiteOf σ ops nm o) w).result := by
    rw [e₁, suiteRunExec_resolved _ _ _ _ h₁, suiteOf_resolved]
    rfl
  have hr2 : (suiteRun compile opts₂ (suiteRun compile opts₁ (suiteOf σ ops nm o) w).suite
        ((suiteRun compile opts₁ (suiteOf σ ops nm o) w).world)).suite.resolved
      = (suiteRun compile opts₁ (suiteOf σ ops nm o) w).suite.resolved := by
    rw [e₂, suiteRunExec_resolved _ _ _ _ h₂, hr1]
    rfl
  exact ⟨hp1, e₂, hr1, hr2⟩

/-- Witness for the C1 theorem at the concrete two-run instance: the
registered body observes the world mutated by the first run, so the
second run's freshly computed result differs while the cached promise
value is unchanged. -/
theorem c1_second_run_reexecutes_witness :
    ((false = false) ∧
      (c1first.suite.pendingProp = true ∧
        suiteRun substrCompile { exitFlag := false } c1first.suite c1first.world
          = suiteRunExec substrCompile { exitFlag := false } c1first.suite c1first.world ∧
        c1first.suite.resolved = some c1first.result ∧
        c1second.suite.resolved = c1first.suite.resolved)) :=
  ⟨rfl, c1_second_run_reexecutes substrCompile { exitFlag := false } { exitFlag := false }
    [Op.test { name := "t",
               body := fun n => (n + 1, if n == 0 then none else some (Err.assertionFailed "ran again")) }]
    "s" {} 0 rfl rfl⟩

/-- Witness for the C10 theorem: on the root scope, a `beforeEach` hook
registered after the test still fires, and before that test's body. -/
theorem c10_late_hook_applies_witness :
    ∃ l₁ l₂,
      (suiteRun substrCompile {}
        (suiteOf Unit ([] ++ [Op.test { name := "t", body := pureBody Unit }, Op.hookAdd HPhase.bEach (noopHook Unit 5)]) "s" {}) ()).log
        = l₁ ++ LEv.hook (noopHook Unit 5).id :: l₂ ∧
      LEv.body (qualify (applyOps ([] : List (Op Unit)) (initSuite Unit "s" {})) "t") ∈ l₂ := by
  refine c10_late_hook_applies [] "s" {} { name := "t", body := pureBody Unit }
    (noopHook Unit 5) substrCompile {} () rfl rfl rfl rfl rfl ?_ ?_
  · intro t ht
    rw [List.mem_singleton.mp ht]
  · intro f hf
    rw [show f = pushHook HPhase.bEach (noopHook Unit 5) (bumpWaiting (newContext Unit "s")) from List.mem_singleton.mp hf]
    refine ⟨?_, ?_, ?_, ?_⟩
    · intro hk hh
      exact absurd hh (List.not_mem_nil hk)
    · intro hk hh w
      rw [List.mem_singleton.mp hh]
      rfl
    · intro hk hh
      exact absurd hh (List.not_mem_nil hk)
    · intro hk hh
      exact absurd hh (List.not_mem_nil hk)

end Testing
